import Mathlib

/-!
# Sieve of Eratosthenes (parallel, bit-packed): embedding of `main.c`

The C program is embedded as follows.

* `unsigned long` values are natural numbers below `ULONG_SIZE = 2 ^ 64`; every
  arithmetic operation of the source is followed by an explicit reduction
  modulo `ULONG_SIZE`.
* The `char *sieve` buffer is a `List Nat` of bytes (bit patterns `0 .. 255`).
  An access outside the buffer is undefined behaviour in C; the embedded macros
  return `none` there.
* A second machine (`Flat`, `psoe_step_flat`) applies the macros without any
  bound, as the code does: the sieve is the memory at `args.sieve`, and the
  memory behind the buffer is arbitrary.  Termination of the worker is proved
  on this machine.
* The shared data reached through the pointers of `struct psoe_args`
  (`sieve`, `max_sieved_sq`) live in `Shared`.  A worker thread is a small
  state machine (`Worker`) whose program points are the places of `psoe` where
  the thread reads or writes shared data; the critical sections guarded by
  `top_sq_lock` are single steps.
* A run of the thread pool is a `List Nat` of thread ids (the schedule): the
  thread named next performs its next step.
-/

namespace Sieve

/-! ## Machine integers -/

/-- Number of values of an `unsigned long` (LP64). -/
def ULONG_SIZE : Nat := 2 ^ 64

/-- Bits per `char`, from `<limits.h>`. -/
def CHAR_BIT : Nat := 8

/-! ## Bit-set macros (`main.c`, lines 19-24) -/

/-- Macro `#define BITMASK(b) (1 << ((b) % CHAR_BIT))`. -/
def BITMASK (b : Nat) : Nat := 1 <<< (b % CHAR_BIT)

/-- Macro `#define BITSLOT(b) ((b) / CHAR_BIT)`. -/
def BITSLOT (b : Nat) : Nat := b / CHAR_BIT

/-- Macro `#define BITSET(a, b) ((a)[BITSLOT(b)] |= BITMASK(b))`: the byte is read,
or-ed with the mask and stored back as a `char`; `none` when the slot lies
outside the buffer. -/
def BITSET (a : List Nat) (b : Nat) : Option (List Nat) :=
  (a[BITSLOT b]?).map fun x => a.set (BITSLOT b) ((x ||| BITMASK b) % 256)

/-- Macro `#define BITTEST(a, b) ((a)[BITSLOT(b)] & BITMASK(b))`: the value of the
expression; `none` when the slot lies outside the buffer. -/
def BITTEST (a : List Nat) (b : Nat) : Option Nat :=
  (a[BITSLOT b]?).map fun x => x &&& BITMASK b

/-- Macro `#define BITNSLOTS(nb) ((nb + CHAR_BIT - 1) / CHAR_BIT)` on an
`unsigned long` argument. -/
def BITNSLOTS (nb : Nat) : Nat := ((nb + CHAR_BIT - 1) % ULONG_SIZE) / CHAR_BIT

/-! ## Index mapping (`main.c`, lines 64-72) -/

/-- Function `ulong itoval(ulong start, ulong i) { return start + 2 * i; }`. -/
def itoval (start i : Nat) : Nat := (start + 2 * i) % ULONG_SIZE

/-- Function `ulong valtoi(ulong start, ulong val) { return (val - start) / 2; }`; the
subtraction wraps around when `val < start`. -/
def valtoi (start val : Nat) : Nat := ((val + ULONG_SIZE - start) % ULONG_SIZE) / 2

/-! ## The worker `psoe` (`main.c`, lines 75-122) -/

/-- The scalar fields of `struct psoe_args`; the two pointer fields `sieve` and
`max_sieved_sq` refer to the `Shared` data. -/
structure psoe_args where
  start : Nat
  tid : Nat
  tcount : Nat
  imax : Nat
  jmax : Nat
deriving DecidableEq, Repr

/-- Data shared by all workers: the sieve buffer and the frontier
`max_sieved_sq` (a local of `psoe_wrapper` that every worker points to). -/
structure Shared where
  sieve : List Nat
  max_sieved_sq : Nat
deriving DecidableEq, Repr

/-- Program points of `psoe`. -/
inductive Loc where
  /-- At the loop condition `i < args.imax` (line 79). -/
  | loopCond
  /-- Inside the locked wait loop `while (i > *max_sieved_sq)` (lines 84-87). -/
  | waitLoop
  /-- Before `if (BITTEST(args.sieve, i))` (line 89). -/
  | bitTest
  /-- At the condition `j < args.jmax` of the crossing-off loop (line 92). -/
  | crossOff
  /-- At the label `up_max`, before the unlocked comparison (line 110). -/
  | upMax
  /-- Before the locked update of the frontier (lines 114-118). -/
  | lockedUpdate
  /-- After `return NULL` (line 121). -/
  | returned
  /-- After an access outside the sieve buffer (undefined behaviour). -/
  | fault
deriving DecidableEq, Repr

/-- A worker thread: its copy of the arguments, its program point and its
locals `i`, `ival`, `isq`, `j`. -/
structure Worker where
  args : psoe_args
  pc : Loc
  i : Nat
  ival : Nat
  isq : Nat
  j : Nat
deriving DecidableEq, Repr

/-- Entry of `psoe`: the arguments are copied and the loop variable is
initialised, `ulong i = args.tid`. -/
def psoe_entry (args : psoe_args) : Worker :=
  { args := args, pc := Loc.loopCond, i := args.tid, ival := 0, isq := 0, j := 0 }

/-- The increment `i += args.tcount` followed by the jump to the loop
condition (the `continue` of line 111 and the end of the loop body). -/
def psoe_continue (w : Worker) : Worker :=
  { w with pc := Loc.loopCond, i := (w.i + w.args.tcount) % ULONG_SIZE }

/-- One step of a worker of `psoe` on the shared data.  A worker that is
blocked in `pthread_cond_wait`, has returned, or has faulted, does not move.
This machine checks the bounds of the buffer, which the code does not: an
access outside the buffer (undefined behaviour) stops the worker at
`Loc.fault`, so that such accesses can be detected.  What the code goes on to
do after such an access is the subject of `psoe_step_flat` below. -/
def psoe_step (w : Worker) (sh : Shared) : Worker × Shared :=
  match w.pc with
  | Loc.loopCond =>
      if w.i < w.args.imax then
        let ival := itoval w.args.start w.i
        ({ w with pc := Loc.waitLoop, ival := ival, isq := (ival * ival) % ULONG_SIZE }, sh)
      else ({ w with pc := Loc.returned }, sh)
  | Loc.waitLoop =>
      if w.i > sh.max_sieved_sq then (w, sh)
      else ({ w with pc := Loc.bitTest }, sh)
  | Loc.bitTest =>
      match BITTEST sh.sieve w.i with
      | none => ({ w with pc := Loc.fault }, sh)
      | some v =>
          if v ≠ 0 then ({ w with pc := Loc.upMax }, sh)
          else ({ w with pc := Loc.crossOff, j := w.isq }, sh)
  | Loc.crossOff =>
      if w.j < w.args.jmax then
        match BITSET sh.sieve (valtoi w.args.start w.j) with
        | none => ({ w with pc := Loc.fault }, sh)
        | some s => ({ w with j := (w.j + w.ival) % ULONG_SIZE }, { sh with sieve := s })
      else ({ w with pc := Loc.upMax }, sh)
  | Loc.upMax =>
      if w.isq < sh.max_sieved_sq then (psoe_continue w, sh)
      else ({ w with pc := Loc.lockedUpdate }, sh)
  | Loc.lockedUpdate =>
      (psoe_continue w,
        if w.isq > sh.max_sieved_sq then { sh with max_sieved_sq := w.isq } else sh)
  | Loc.returned => (w, sh)
  | Loc.fault => (w, sh)

/-- A worker run on its own (no other thread moves) for `fuel` steps. -/
def psoe_run : Nat → Worker → Shared → Worker × Shared
  | 0, w, sh => (w, sh)
  | fuel + 1, w, sh => psoe_run fuel (psoe_step w sh).1 (psoe_step w sh).2

/-- The call `psoe(&args)` run on its own: the shared data when the worker has
returned within `fuel` steps, `none` when it has not (more steps are needed, it
is blocked in the wait loop for ever, or it has faulted). -/
def psoe (fuel : Nat) (args : psoe_args) (sh : Shared) : Option Shared :=
  if (psoe_run fuel (psoe_entry args) sh).1.pc = Loc.returned then
    some (psoe_run fuel (psoe_entry args) sh).2
  else none

/-- The index handed to `BITSET` by the next step of a worker, when that step
is a pass through the body of the crossing-off loop (line 104). -/
def psoe_mark (w : Worker) : Option Nat :=
  if w.pc = Loc.crossOff ∧ w.j < w.args.jmax then some (valtoi w.args.start w.j) else none

/-- The indices handed to `BITSET`, in order, during `fuel` steps of a worker
run on its own. -/
def psoe_marks : Nat → Worker → Shared → List Nat
  | 0, _, _ => []
  | fuel + 1, w, sh =>
      (psoe_mark w).toList ++ psoe_marks fuel (psoe_step w sh).1 (psoe_step w sh).2

/-- One iteration of the loop of line 79 by a worker run on its own: steps are
taken until the worker is back at the loop condition; `none` when that does
not happen within `fuel` steps. -/
def psoe_iter : Nat → Worker → Shared → Option (Worker × Shared)
  | 0, _, _ => none
  | fuel + 1, w, sh =>
      if (psoe_step w sh).1.pc = Loc.loopCond then some (psoe_step w sh)
      else psoe_iter fuel (psoe_step w sh).1 (psoe_step w sh).2

/-! ## The worker on memory without bounds (`main.c`, lines 75-122)

The macros of lines 19-24 check no bound.  The machine of this section follows
the code there: the sieve is the memory at `args.sieve`, one byte per offset,
and an offset at or past the allocated size denotes the memory behind the
buffer.  That memory is taken to be disjoint from `max_sieved_sq` and from the
locals of the worker. -/

/-- The memory at `args.sieve`, byte by offset, and the frontier. -/
structure Flat where
  mem : Nat → Nat
  max_sieved_sq : Nat

/-- Macro `BITSET(a, b)` on memory without bounds: the byte at offset
`BITSLOT(b)` is or-ed with the mask and stored back as a `char`. -/
def BITSET_flat (a : Nat → Nat) (b : Nat) : Nat → Nat :=
  fun k => if k = BITSLOT b then (a k ||| BITMASK b) % 256 else a k

/-- Macro `BITTEST(a, b)` on memory without bounds. -/
def BITTEST_flat (a : Nat → Nat) (b : Nat) : Nat := a (BITSLOT b) &&& BITMASK b

/-- One step of a worker of `psoe` on memory without bounds: `psoe_step` with
the macros applied as the code applies them, whatever the offset.
(`Loc.fault` is not reached by this machine.) -/
def psoe_step_flat (w : Worker) (sh : Flat) : Worker × Flat :=
  match w.pc with
  | Loc.loopCond =>
      if w.i < w.args.imax then
        let ival := itoval w.args.start w.i
        ({ w with pc := Loc.waitLoop, ival := ival, isq := (ival * ival) % ULONG_SIZE }, sh)
      else ({ w with pc := Loc.returned }, sh)
  | Loc.waitLoop =>
      if w.i > sh.max_sieved_sq then (w, sh)
      else ({ w with pc := Loc.bitTest }, sh)
  | Loc.bitTest =>
      if BITTEST_flat sh.mem w.i ≠ 0 then ({ w with pc := Loc.upMax }, sh)
      else ({ w with pc := Loc.crossOff, j := w.isq }, sh)
  | Loc.crossOff =>
      if w.j < w.args.jmax then
        ({ w with j := (w.j + w.ival) % ULONG_SIZE },
          { sh with mem := BITSET_flat sh.mem (valtoi w.args.start w.j) })
      else ({ w with pc := Loc.upMax }, sh)
  | Loc.upMax =>
      if w.isq < sh.max_sieved_sq then (psoe_continue w, sh)
      else ({ w with pc := Loc.lockedUpdate }, sh)
  | Loc.lockedUpdate =>
      (psoe_continue w,
        if w.isq > sh.max_sieved_sq then { sh with max_sieved_sq := w.isq } else sh)
  | Loc.returned => (w, sh)
  | Loc.fault => (w, sh)

/-- A worker run on its own on memory without bounds for `fuel` steps. -/
def psoe_run_flat : Nat → Worker → Flat → Worker × Flat
  | 0, w, sh => (w, sh)
  | fuel + 1, w, sh => psoe_run_flat fuel (psoe_step_flat w sh).1 (psoe_step_flat w sh).2

/-- One iteration of the loop of line 79 by a worker run on its own on memory
without bounds: steps are taken until the worker is back at the loop
condition; `none` when that does not happen within `fuel` steps. -/
def psoe_iter_flat : Nat → Worker → Flat → Option (Worker × Flat)
  | 0, _, _ => none
  | fuel + 1, w, sh =>
      if (psoe_step_flat w sh).1.pc = Loc.loopCond then some (psoe_step_flat w sh)
      else psoe_iter_flat fuel (psoe_step_flat w sh).1 (psoe_step_flat w sh).2

/-! ## The thread pool and `psoe_wrapper` (`main.c`, lines 125-207) -/

/-- The thread pool together with the shared data. -/
structure Pool where
  threads : List Worker
  shared : Shared
deriving DecidableEq, Repr

/-- The scheduler lets thread `t` perform its next step. -/
def Pool.step (p : Pool) (t : Nat) : Pool :=
  match p.threads[t]? with
  | none => p
  | some w =>
      let r := psoe_step w p.shared
      { threads := p.threads.set t r.1, shared := r.2 }

/-- The pool after the steps of a schedule. -/
def Pool.run (p : Pool) (sched : List Nat) : Pool := sched.foldl Pool.step p

/-- Upward search for the floor square root of `n`: starting from `r`, move to
`r + 1` while `(r + 1) * (r + 1) <= n`, for at most `fuel` moves. -/
def csqrt_from (n : Nat) : Nat → Nat → Nat
  | 0, r => r
  | fuel + 1, r => if (r + 1) * (r + 1) ≤ n then csqrt_from n fuel (r + 1) else r

/-- The library call `(ulong) sqrt(max)`, taken as the integer floor square
root of `max` (`csqrt_eq_sqrt` below).  That is the value of the call for
`max < 2^52`, where the conversion of `max` to `double` is exact; for larger
`max` the rounding of the conversion can make the value of the call one
larger. -/
def csqrt (max : Nat) : Nat := csqrt_from max max 0

/-- Local `ulong itop = valtoi(start, (ulong) sqrt(max) + 1);` (line 143). -/
def itop_of (start max : Nat) : Nat := valtoi start ((csqrt max + 1) % ULONG_SIZE)

/-- The loop bound `argpool[i].imax` stored for thread `i` (lines 144,
178-187): `itop`, plus `tcount` when `i < leftovers`. -/
def imax_of (itop tcount i : Nat) : Nat :=
  if i < itop % tcount then (itop + tcount) % ULONG_SIZE else itop

/-- The argument block `argpool[i]` built by `psoe_wrapper` (lines 168-187). -/
def argpool (start max tcount i : Nat) : psoe_args :=
  { start := start, tid := i, tcount := tcount,
    imax := imax_of (itop_of start max) tcount i, jmax := max }

/-- State of `psoe_wrapper` once every thread has been created: the sieve is
the zeroed `calloc` buffer of `BITNSLOTS(valtoi(start, max))` bytes, the
frontier is `start * start`, and every worker is at its entry. -/
def psoe_wrapper_init (start max tcount : Nat) : Pool :=
  { threads := (List.range tcount).map fun i => psoe_entry (argpool start max tcount i),
    shared := { sieve := List.replicate (BITNSLOTS (valtoi start max)) 0,
                max_sieved_sq := (start * start) % ULONG_SIZE } }

/-- Decidable test that every worker has returned (all joins succeed). -/
def Pool.joined (p : Pool) : Bool := p.threads.all fun w => decide (w.pc = Loc.returned)

/-- The buffer returned by `psoe_wrapper(start, max, tcount)` under a schedule:
`some sieve` when all workers have returned after the schedule, `none`
otherwise (a worker is still running or blocked, has faulted, or
`tcount = 0`, where `itop % tcount` is undefined). -/
def psoe_wrapper (start max tcount : Nat) (sched : List Nat) : Option (List Nat) :=
  if tcount = 0 then none
  else
    let p := (psoe_wrapper_init start max tcount).run sched
    if p.joined then some p.shared.sieve else none

/-- The values of `i` for which the loop `for (i = tid; i < imax; i += tcount)`
of line 79 runs its body, for at most `fuel` iterations. -/
def loop_indices : Nat → Nat → Nat → Nat → List Nat
  | 0, _, _, _ => []
  | fuel + 1, i, imax, tcount =>
      if i < imax then i :: loop_indices fuel ((i + tcount) % ULONG_SIZE) imax tcount else []

/-- The indices assigned to thread `tid`: the loop of line 79 run with the
bound stored for it by `psoe_wrapper`.  The loop variable grows by
`tcount >= 1` and stays below the bound, so `imax` iterations suffice when the
increment does not wrap around. -/
def assigned (itop tcount tid : Nat) : List Nat :=
  loop_indices (imax_of itop tcount tid) tid (imax_of itop tcount tid) tcount

/-- The index set `{tid, tid + tcount, tid + 2 * tcount, ...}` below the bound
stored for thread `tid`, as an arithmetic progression of natural numbers. -/
def index_set (itop tcount tid : Nat) : List Nat :=
  (List.range (imax_of itop tcount tid)).filter fun x =>
    decide (tid ≤ x ∧ (x - tid) % tcount = 0)

/-- The memory and the frontier that `psoe_wrapper(start, max, _)` hands to its
workers, on memory without bounds: the zeroed `calloc` buffer of
`BITNSLOTS(valtoi(start, max))` bytes, with `behind` as the content of the
memory behind it, and the frontier `start * start`. -/
def psoe_wrapper_flat (start max : Nat) (behind : Nat → Nat) : Flat :=
  { mem := fun k => if k < BITNSLOTS (valtoi start max) then 0 else behind k,
    max_sieved_sq := (start * start) % ULONG_SIZE }

/-! ## The scan of `main` (lines 242-245) -/

/-- The values printed by the scan of `main` over a sieve: `itoval(START, i)`
for each `i < valtoi(START, max)` whose bit tests clear. -/
def main_scan (start max : Nat) (sieve : List Nat) : List Nat :=
  ((List.range (valtoi start max)).filter fun i => BITTEST sieve i == some 0).map
    (itoval start)

/-! ## Auxiliary definitions for the proofs -/

/-- The sieve for `start = 5`, `max = 100` after the single worker returned. -/
def sieve_5_100 : List Nat := [0, 148, 82, 106, 249, 237]

/-- The sieve for `start = 5`, `max = 900` after the single worker returned. -/
def sieve_5_900_single : List Nat :=
  [0, 148, 82, 106, 249, 237, 188, 215, 235, 109, 175, 157, 123, 126, 255, 191, 215, 114, 223,
   235, 245, 183, 223, 207, 171, 247, 254, 247, 218, 253, 245, 254, 247, 107, 127, 255, 223,
   255, 250, 185, 239, 190, 94, 255, 111, 239, 221, 122, 127, 255, 253, 252, 243, 255, 239, 125]

/-- A schedule of five threads for `max = 900`: thread 2 runs until it returns,
then the threads 0, 1, 3 and 4, each until it returns. -/
def sched_5_900_five : List Nat :=
  List.replicate 148 2 ++ List.replicate 239 0 ++ List.replicate 186 1 ++
    List.replicate 104 3 ++ List.replicate 85 4

/-- The sieve for `start = 5`, `max = 900` after the five workers returned
under `sched_5_900_five`. -/
def sieve_5_900_five : List Nat :=
  [0, 148, 82, 106, 249, 237, 188, 215, 235, 109, 175, 157, 123, 126, 255, 191, 215, 114, 223,
   235, 245, 183, 223, 207, 171, 247, 254, 247, 218, 253, 245, 254, 247, 107, 127, 255, 223,
   255, 250, 185, 239, 190, 94, 255, 111, 239, 221, 122, 127, 255, 253, 252, 247, 255, 239, 253]

/-- A worker inside an iteration of the loop of line 79 (or stopped for good):
it is not at the loop condition and, unless it has faulted or returned, its
local `isq` is `isq` and the frontier is `m`. -/
def InIteration (isq m : Nat) (w : Worker) (sh : Shared) : Prop :=
  w.pc ≠ Loc.loopCond ∧
    (w.pc = Loc.fault ∨ w.pc = Loc.returned ∨ (w.isq = isq ∧ sh.max_sieved_sq = m))

/-- Invariant of the single worker of `psoe_wrapper(5, max, 1)`: its arguments
are `start = 5`, `tcount = 1` and a loop bound of at most `2^31 - 3`; its index
is not above the frontier; and inside an iteration the index is below the
bound and `isq` is the square of `5 + 2 * i`. -/
structure SoloInv (w : Worker) (sh : Shared) : Prop where
  start_eq : w.args.start = 5
  tcount_eq : w.args.tcount = 1
  imax_le : w.args.imax ≤ 2147483645
  index_le : w.i ≤ sh.max_sieved_sq
  body : w.pc ≠ Loc.loopCond → w.pc ≠ Loc.returned → w.pc ≠ Loc.fault →
    w.i < w.args.imax ∧ w.isq = (5 + 2 * w.i) * (5 + 2 * w.i)

/-- Invariant of a single worker with `start = 5`, `tcount = 1`, loop bound
`imax` and `jmax = max` on memory without bounds: its index is neither above
the frontier nor above the bound, and inside an iteration the index is below
the bound, `ival` is `5 + 2 * i` and `isq` is its square. -/
structure FlatInv (imax max : Nat) (w : Worker) (sh : Flat) : Prop where
  args_eq : w.args = { start := 5, tid := 0, tcount := 1, imax := imax, jmax := max }
  index_le : w.i ≤ sh.max_sieved_sq
  index_le_imax : w.i ≤ imax
  not_fault : w.pc ≠ Loc.fault
  body : w.pc ≠ Loc.loopCond → w.pc ≠ Loc.returned →
    w.i < imax ∧ w.ival = 5 + 2 * w.i ∧ w.isq = (5 + 2 * w.i) * (5 + 2 * w.i)

/-- State of a pool in which no worker has an index to visit: the sieve is
still zeroed, every loop bound is `0`, and every worker is at the loop
condition or has returned. -/
structure Idle (p : Pool) : Prop where
  sieve_eq : p.shared.sieve = [0, 0]
  workers : ∀ (u : Nat) (w : Worker), p.threads[u]? = some w →
    w.args.imax = 0 ∧ (w.pc = Loc.loopCond ∨ w.pc = Loc.returned)

/-! ## Facts about the bit-set macros -/

theorem ulong_size_eq : ULONG_SIZE = 18446744073709551616 := by decide

theorem bitmask_eq (b : Nat) : BITMASK b = 2 ^ (b % 8) := by
  unfold BITMASK CHAR_BIT
  exact Nat.one_shiftLeft _

theorem and_two_pow_eq_zero_iff (x k : Nat) : x &&& 2 ^ k = 0 ↔ x.testBit k = false := by
  constructor
  · intro h
    have h1 : (x &&& 2 ^ k).testBit k = false := by rw [h]; exact Nat.zero_testBit k
    simpa [Nat.testBit_and, Nat.testBit_two_pow_self] using h1
  · intro h
    apply Nat.eq_of_testBit_eq
    intro i
    by_cases hki : k = i
    · subst hki
      simp [Nat.testBit_and, h]
    · simp [Nat.testBit_and, Nat.testBit_two_pow_of_ne hki]

/-- The byte stored by `BITSET`, bit by bit: below bit 8 it is the old byte
with bit `k` added. -/
theorem testBit_stored (x k i : Nat) :
    ((x ||| 2 ^ k) % 256).testBit i = (decide (i < 8) && (x.testBit i || decide (k = i))) := by
  have h256 : (256 : Nat) = 2 ^ 8 := by norm_num
  rw [h256, Nat.testBit_mod_two_pow, Nat.testBit_or, Nat.testBit_two_pow]

theorem stored_idem (x k : Nat) :
    (((x ||| 2 ^ k) % 256) ||| 2 ^ k) % 256 = (x ||| 2 ^ k) % 256 := by
  apply Nat.eq_of_testBit_eq
  intro i
  rw [testBit_stored _ k i, testBit_stored x k i]
  cases decide (i < 8) <;> cases x.testBit i <;> cases decide (k = i) <;> rfl

theorem bittest_eq_some (a : List Nat) (c : Nat) (hc : BITSLOT c < a.length) :
    BITTEST a c = some (a[BITSLOT c] &&& 2 ^ (c % 8)) := by
  unfold BITTEST
  rw [List.getElem?_eq_getElem hc, bitmask_eq]
  rfl

theorem bitset_eq_some (a : List Nat) (b : Nat) (hb : BITSLOT b < a.length) :
    BITSET a b = some (a.set (BITSLOT b) ((a[BITSLOT b] ||| 2 ^ (b % 8)) % 256)) := by
  unfold BITSET
  rw [List.getElem?_eq_getElem hb, bitmask_eq]
  rfl

theorem bitset_length (a a' : List Nat) (b : Nat) (h : BITSET a b = some a') :
    a'.length = a.length := by
  unfold BITSET at h
  cases hx : a[BITSLOT b]? with
  | none => rw [hx] at h; cases h
  | some x =>
      rw [hx] at h
      simp only [Option.map_some', Option.some.injEq] at h
      rw [← h, List.length_set]

/-- Two bit indices with the same slot and the same position in the slot are
equal. -/
theorem bit_index_ext (b c : Nat) (hs : BITSLOT b = BITSLOT c) (hm : b % 8 = c % 8) :
    b = c := by
  unfold BITSLOT CHAR_BIT at hs
  omega

/-! ## The square root -/

theorem csqrt_from_eq_sqrt (n fuel r : Nat) (h1 : r * r ≤ n) (h2 : Nat.sqrt n ≤ r + fuel) :
    csqrt_from n fuel r = Nat.sqrt n := by
  induction fuel generalizing r with
  | zero =>
      unfold csqrt_from
      exact Nat.le_antisymm (Nat.le_sqrt.mpr h1) (by omega)
  | succ fuel ih =>
      unfold csqrt_from
      split
      · rename_i hle
        exact ih (r + 1) hle (by omega)
      · rename_i hlt
        have hlt2 : Nat.sqrt n < r + 1 := Nat.sqrt_lt.mpr (Nat.lt_of_not_le hlt)
        exact Nat.le_antisymm (Nat.le_sqrt.mpr h1) (by omega)

/-- The embedded `csqrt` is the floor square root. -/
theorem csqrt_eq_sqrt (n : Nat) : csqrt n = Nat.sqrt n := by
  unfold csqrt
  exact csqrt_from_eq_sqrt n n 0 (Nat.zero_le _) (by have := Nat.sqrt_le_self n; omega)

/-! ## Index mapping -/

/-- C5: for every `start` and every index `i` such that `start + 2 * i` is
representable in an `unsigned long`, `valtoi(start, itoval(start, i)) = i`. -/
theorem valtoi_itoval (start i : Nat) (h : start + 2 * i < ULONG_SIZE) :
    valtoi start (itoval start i) = i := by
  unfold valtoi itoval
  rw [ulong_size_eq] at *
  omega

theorem valtoi_itoval_witness : 5 + 2 * 12 < ULONG_SIZE ∧ valtoi 5 (itoval 5 12) = 12 :=
  ⟨by decide, valtoi_itoval 5 12 (by decide)⟩

/-! ## The bit-set macros -/

/-- C7: for every buffer `a` and in-range bit index `b`, `BITSET(a, b)` yields a
buffer in which `BITTEST(a, b)` is non-zero, and for every other in-range
index `c` the truth value of `BITTEST(a, c)` is the same as before. -/
theorem BITSET_sets_exactly (a : List Nat) (b : Nat) (hb : BITSLOT b < a.length) :
    ∃ a', BITSET a b = some a' ∧
      (∃ v, BITTEST a' b = some v ∧ v ≠ 0) ∧
      ∀ c, BITSLOT c < a.length → c ≠ b →
        ∃ v v', BITTEST a c = some v ∧ BITTEST a' c = some v' ∧ (v' ≠ 0 ↔ v ≠ 0) := by
  refine ⟨_, bitset_eq_some a b hb, ?_, ?_⟩
  · have hlen : BITSLOT b < (a.set (BITSLOT b) ((a[BITSLOT b] ||| 2 ^ (b % 8)) % 256)).length := by
      rw [List.length_set]; exact hb
    refine ⟨_, bittest_eq_some _ b hlen, ?_⟩
    rw [List.getElem_set_self, Ne, and_two_pow_eq_zero_iff, testBit_stored]
    have h8 : b % 8 < 8 := Nat.mod_lt _ (by norm_num)
    simp [h8]
  · intro c hc hcb
    have hlen : BITSLOT c < (a.set (BITSLOT b) ((a[BITSLOT b] ||| 2 ^ (b % 8)) % 256)).length := by
      rw [List.length_set]; exact hc
    refine ⟨_, _, bittest_eq_some a c hc, bittest_eq_some _ c hlen, ?_⟩
    rw [Ne, Ne, and_two_pow_eq_zero_iff, and_two_pow_eq_zero_iff]
    by_cases hs : BITSLOT b = BITSLOT c
    · have hm : b % 8 ≠ c % 8 := fun hm => hcb (bit_index_ext b c hs hm).symm
      have h8 : c % 8 < 8 := Nat.mod_lt _ (by norm_num)
      have hget : (a.set (BITSLOT b) ((a[BITSLOT b] ||| 2 ^ (b % 8)) % 256))[BITSLOT c] =
          (a[BITSLOT c] ||| 2 ^ (b % 8)) % 256 := by
        simp only [hs, List.getElem_set_self]
      rw [hget, testBit_stored]
      simp [h8, hm]
    · rw [List.getElem_set_ne hs]

theorem BITSET_sets_exactly_witness :
    BITSLOT 12 < [0, 148].length ∧
    ∃ a', BITSET [0, 148] 12 = some a' ∧
      (∃ v, BITTEST a' 12 = some v ∧ v ≠ 0) ∧
      ∀ c, BITSLOT c < [0, 148].length → c ≠ 12 →
        ∃ v v', BITTEST [0, 148] c = some v ∧ BITTEST a' c = some v' ∧ (v' ≠ 0 ↔ v ≠ 0) :=
  ⟨by decide, BITSET_sets_exactly [0, 148] 12 (by decide)⟩

/-- C8: `BITSET` is idempotent: for every buffer `a` and in-range index `b`,
`BITSET(a, b)` succeeds and applying `BITSET(_, b)` to its result returns that
same buffer again. -/
theorem BITSET_idempotent (a : List Nat) (b : Nat) (hb : BITSLOT b < a.length) :
    ∃ a', BITSET a b = some a' ∧ BITSET a' b = some a' := by
  refine ⟨_, bitset_eq_some a b hb, ?_⟩
  have hlen : BITSLOT b < (a.set (BITSLOT b) ((a[BITSLOT b] ||| 2 ^ (b % 8)) % 256)).length := by
    rw [List.length_set]; exact hb
  rw [bitset_eq_some _ b hlen, List.getElem_set_self, stored_idem, List.set_set]

theorem BITSET_idempotent_witness :
    BITSLOT 12 < [0, 0].length ∧
    ∃ a', BITSET [0, 0] 12 = some a' ∧ BITSET a' 12 = some a' :=
  ⟨by decide, BITSET_idempotent [0, 0] 12 (by decide)⟩

/-! ## Runs of the thread pool -/

theorem run_nil (p : Pool) : p.run [] = p := rfl

theorem run_cons (p : Pool) (t : Nat) (ts : List Nat) :
    p.run (t :: ts) = (p.step t).run ts := rfl

theorem run_append (p : Pool) (s₁ s₂ : List Nat) :
    p.run (s₁ ++ s₂) = (p.run s₁).run s₂ := by
  unfold Pool.run
  exact List.foldl_append _ _ _ _

theorem step_threads_length (p : Pool) (t : Nat) :
    (p.step t).threads.length = p.threads.length := by
  unfold Pool.step
  cases h : p.threads[t]? with
  | none => rfl
  | some w => simp

theorem step_of_length_le (p : Pool) (t : Nat) (h : p.threads.length ≤ t) : p.step t = p := by
  unfold Pool.step
  rw [List.getElem?_eq_none h]

/-- A step of thread `t` leaves every other thread as it is. -/
theorem step_getElem?_ne (p : Pool) (t u : Nat) (h : t ≠ u) :
    (p.step t).threads[u]? = p.threads[u]? := by
  unfold Pool.step
  cases hw : p.threads[t]? with
  | none => rfl
  | some w => simp [List.getElem?_set_ne h]

/-- A step of thread `t` replaces it by the result of `psoe_step`. -/
theorem step_getElem?_self (p : Pool) (t : Nat) (w : Worker) (hw : p.threads[t]? = some w) :
    (p.step t).threads[t]? = some (psoe_step w p.shared).1 := by
  have hlt : t < p.threads.length := (List.getElem?_eq_some_iff.mp hw).1
  unfold Pool.step
  rw [hw]
  simp [List.getElem?_set_self hlt]

theorem step_shared_self (p : Pool) (t : Nat) (w : Worker) (hw : p.threads[t]? = some w) :
    (p.step t).shared = (psoe_step w p.shared).2 := by
  unfold Pool.step
  rw [hw]

/-- Writing back the element already stored at a position changes nothing. -/
theorem set_of_getElem? {α : Type} (l : List α) (t : Nat) (w : α) (h : l[t]? = some w) :
    l.set t w = l := by
  have hlt : t < l.length := (List.getElem?_eq_some_iff.mp h).1
  apply List.ext_getElem?
  intro n
  by_cases hn : t = n
  · subst hn
    rw [List.getElem?_set_self hlt, h]
  · rw [List.getElem?_set_ne hn]

/-- A worker that has returned does not move. -/
theorem psoe_step_returned (w : Worker) (sh : Shared) (h : w.pc = Loc.returned) :
    psoe_step w sh = (w, sh) := by
  unfold psoe_step
  rw [h]

/-- Once every worker has returned, no step changes the pool. -/
theorem step_of_joined (p : Pool) (t : Nat) (h : p.joined = true) : p.step t = p := by
  unfold Pool.joined at h
  rw [List.all_eq_true] at h
  unfold Pool.step
  cases hw : p.threads[t]? with
  | none => rfl
  | some w =>
      have hmem : w ∈ p.threads := List.mem_iff_getElem?.mpr ⟨t, hw⟩
      have hpc : w.pc = Loc.returned := by simpa using h w hmem
      simp only [psoe_step_returned w p.shared hpc]
      rw [set_of_getElem? p.threads t w hw]

theorem run_of_joined (p : Pool) (sched : List Nat) (h : p.joined = true) : p.run sched = p := by
  induction sched with
  | nil => rfl
  | cons t ts ih => rw [run_cons, step_of_joined p t h, ih]

/-- A pool of one thread runs that thread on its own. -/
theorem run_replicate_single (n : Nat) (w : Worker) (sh : Shared) :
    ({ threads := [w], shared := sh } : Pool).run (List.replicate n 0) =
      { threads := [(psoe_run n w sh).1], shared := (psoe_run n w sh).2 } := by
  induction n generalizing w sh with
  | zero => rfl
  | succ n ih =>
      rw [List.replicate_succ, run_cons]
      exact ih (psoe_step w sh).1 (psoe_step w sh).2

/-- With one thread, `psoe_wrapper` returns the sieve that `psoe` leaves when
run on its own on the initial shared data. -/
theorem psoe_wrapper_single (start max n : Nat) :
    psoe_wrapper start max 1 (List.replicate n 0) =
      (psoe n (argpool start max 1 0) (psoe_wrapper_init start max 1).shared).map
        fun sh => sh.sieve := by
  have hinit : psoe_wrapper_init start max 1 =
      { threads := [psoe_entry (argpool start max 1 0)],
        shared := (psoe_wrapper_init start max 1).shared } := rfl
  unfold psoe_wrapper psoe
  rw [if_neg (by decide), hinit, run_replicate_single]
  simp only [Pool.joined, List.all_cons, List.all_nil, Bool.and_true, decide_eq_true_eq]
  split <;> rfl

/-- With a single thread only the number of steps given to thread `0`
matters. -/
theorem run_single (p : Pool) (sched : List Nat) (h : p.threads.length = 1) :
    p.run sched = p.run (List.replicate (sched.count 0) 0) := by
  induction sched generalizing p with
  | nil => rfl
  | cons t ts ih =>
      by_cases ht : t = 0
      · subst ht
        rw [List.count_cons_self, List.replicate_succ, run_cons, run_cons]
        exact ih (p.step 0) (by rw [step_threads_length]; exact h)
      · have ht1 : p.threads.length ≤ t := by omega
        rw [run_cons, step_of_length_le p t ht1, List.count_cons_of_ne (Ne.symm ht)]
        exact ih p h

/-! ## The single-threaded run for `max = 100` -/

set_option maxRecDepth 100000 in
theorem run_5_100_complete :
    ((psoe_wrapper_init 5 100 1).run (List.replicate 45 0)).joined = true ∧
    ((psoe_wrapper_init 5 100 1).run (List.replicate 45 0)).shared.sieve = sieve_5_100 := by
  decide

set_option maxRecDepth 100000 in
theorem run_5_100_incomplete :
    ∀ k, k < 45 → ((psoe_wrapper_init 5 100 1).run (List.replicate k 0)).joined = false := by
  decide

/-- Whatever the schedule, a completed call `psoe_wrapper(5, 100, 1)` returns
`sieve_5_100`. -/
theorem psoe_wrapper_5_100_1 (sched : List Nat) (sieve : List Nat)
    (h : psoe_wrapper 5 100 1 sched = some sieve) : sieve = sieve_5_100 := by
  unfold psoe_wrapper at h
  rw [if_neg (by decide), run_single _ sched (by decide)] at h
  by_cases hk : sched.count 0 < 45
  · simp [run_5_100_incomplete _ hk] at h
  · have hsplit : List.replicate (sched.count 0) 0 =
        List.replicate 45 0 ++ List.replicate (sched.count 0 - 45) 0 := by
      rw [List.append_replicate_replicate]
      congr 1
      omega
    rw [hsplit, run_append, run_of_joined _ _ run_5_100_complete.1] at h
    simp only [run_5_100_complete.1, if_true, Option.some.injEq] at h
    rw [← h, run_5_100_complete.2]

/-- C1: with `start = 5`, `tcount = 1` and the tested bound `max = 100` the
single worker runs to completion and every completed run returns the same
sieve; in it index `2 < valtoi(5, 100)` has a clear bit, so `main` prints
`itoval(5, 2) = 9`, which is not prime. -/
theorem clear_bit_of_composite_nine :
    psoe_wrapper 5 100 1 (List.replicate 45 0) = some sieve_5_100 ∧
    (∀ sched sieve, psoe_wrapper 5 100 1 sched = some sieve → sieve = sieve_5_100) ∧
    2 < valtoi 5 100 ∧ BITTEST sieve_5_100 2 = some 0 ∧
    itoval 5 2 = 9 ∧ 9 ∈ main_scan 5 100 sieve_5_100 ∧ ¬ Nat.Prime 9 := by
  refine ⟨?_, psoe_wrapper_5_100_1, by decide, by decide, by decide, by decide, by norm_num⟩
  unfold psoe_wrapper
  rw [if_neg (by decide)]
  simp only [run_5_100_complete.1, if_true, run_5_100_complete.2]

/-- C2: with `start = 5`, `tcount = 1` and the tested bound `max = 100` the
single worker runs to completion and every completed run returns the same
sieve; in it index `12 < valtoi(5, 100)` has its bit set (the crossing-off
pass of 5 reaches `j = 30`, and `valtoi(5, 30) = 12`), although
`itoval(5, 12) = 29` is prime, and 29 is missing from what `main` prints. -/
theorem set_bit_of_prime_twenty_nine :
    (∃ sched, psoe_wrapper 5 100 1 sched = some sieve_5_100) ∧
    (∀ sched sieve, psoe_wrapper 5 100 1 sched = some sieve → sieve = sieve_5_100) ∧
    12 < valtoi 5 100 ∧ BITTEST sieve_5_100 12 = some 16 ∧ valtoi 5 30 = 12 ∧
    itoval 5 12 = 29 ∧ 29 ∉ main_scan 5 100 sieve_5_100 ∧ Nat.Prime 29 := by
  refine ⟨⟨List.replicate 45 0, ?_⟩, psoe_wrapper_5_100_1, by decide, by decide, by decide,
    by decide, by decide, by norm_num⟩
  unfold psoe_wrapper
  rw [if_neg (by decide)]
  simp only [run_5_100_complete.1, if_true, run_5_100_complete.2]

/-! ## Work partition -/

set_option maxRecDepth 100000 in
/-- C4: for `psoe_wrapper(5, 36, 2)` the bound is `itop = 1` and
`leftovers = 1`, so thread 0 is given `imax = 3` and its loop visits the
indices 0 and 2, while thread 1 visits none: the union of the assigned
indices is `{0, 2}`, not `[0, 1)`.  In the pool, after eleven steps of thread 0
that thread stands before `BITTEST(sieve, 2)`. -/
theorem partition_visits_index_beyond_itop :
    itop_of 5 36 = 1 ∧ imax_of 1 2 0 = 3 ∧ imax_of 1 2 1 = 1 ∧
    assigned 1 2 0 = [0, 2] ∧ assigned 1 2 1 = [] ∧ ¬ (2 < 1) ∧
    (((psoe_wrapper_init 5 36 2).run (List.replicate 11 0)).threads.map
      fun w => (w.args.imax, w.pc, w.i)) = [(3, Loc.bitTest, 2), (1, Loc.loopCond, 1)] := by
  decide

/-! ## Range of the scan -/

/-- Every index below `valtoi(start, max)` stands for a value below `max`. -/
theorem itoval_lt_of_lt_valtoi (start max i : Nat) (hs : start ≤ max) (hm : max < ULONG_SIZE)
    (hi : i < valtoi start max) : itoval start i < max := by
  unfold valtoi at hi
  unfold itoval
  rw [ulong_size_eq] at *
  omega

/-- For an odd bound every odd value of `[start, max)` has an index below
`valtoi(start, max)`. -/
theorem valtoi_lt_of_odd_bound (start max v : Nat) (hs : start % 2 = 1) (hmo : max % 2 = 1)
    (hv : v % 2 = 1) (h1 : start ≤ v) (h2 : v < max) (hm : max < ULONG_SIZE) :
    valtoi start v < valtoi start max := by
  unfold valtoi
  rw [ulong_size_eq] at *
  omega

/-- C6: for the odd `start = 5` and the even bound `max = 98 > start`, the odd
value 97 lies in `[5, 98)` but `valtoi(5, 97) = 46` is not below
`valtoi(5, 98) = 46`: the scan of `main` stops before the index of 97, so the
prime 97 is printed for no content of the sieve.  The crossing-off loop, bounded
by `j < max`, does count the last odd value in: for `max = 100` it marks the
index of 99, which is `valtoi(5, 100)` itself. -/
theorem even_bound_drops_last_odd :
    97 % 2 = 1 ∧ 5 ≤ 97 ∧ 97 < 98 ∧ valtoi 5 97 = 46 ∧ valtoi 5 98 = 46 ∧
    ¬ (valtoi 5 97 < valtoi 5 98) ∧ Nat.Prime 97 ∧
    (valtoi 5 99 = valtoi 5 100 ∧ BITTEST sieve_5_100 (valtoi 5 99) = some 128) ∧
    ∀ sieve, 97 ∉ main_scan 5 98 sieve := by
  refine ⟨by decide, by decide, by decide, by decide, by decide, by decide, by norm_num,
    by decide, ?_⟩
  intro sieve hmem
  unfold main_scan at hmem
  rw [List.mem_map] at hmem
  obtain ⟨i, hi, hval⟩ := hmem
  have hlt : i < valtoi 5 98 := List.mem_range.mp (List.mem_filter.mp hi).1
  have h46 : valtoi 5 98 = 46 := by decide
  rw [h46] at hlt
  unfold itoval at hval
  rw [ulong_size_eq] at hval
  omega

/-! ## The boundary `start = 5`, `max = 25` -/

/-- A worker with loop bound `0` returns at once and touches nothing. -/
theorem psoe_step_idle (w : Worker) (sh : Shared) (h0 : w.args.imax = 0)
    (hpc : w.pc = Loc.loopCond ∨ w.pc = Loc.returned) :
    psoe_step w sh = ({ w with pc := Loc.returned }, sh) := by
  rcases hpc with hpc | hpc
  · unfold psoe_step
    rw [hpc]
    simp [h0]
  · rw [psoe_step_returned w sh hpc]
    cases w
    simp only at hpc
    subst hpc
    rfl

theorem idle_step (p : Pool) (t : Nat) (h : Idle p) : Idle (p.step t) := by
  cases hw : p.threads[t]? with
  | none =>
      have hp : p.step t = p := by unfold Pool.step; rw [hw]
      rw [hp]; exact h
  | some w =>
      obtain ⟨h0, hpc⟩ := h.workers t w hw
      constructor
      · rw [step_shared_self p t w hw, psoe_step_idle w p.shared h0 hpc]
        exact h.sieve_eq
      · intro u w' hw'
        by_cases htu : t = u
        · subst htu
          rw [step_getElem?_self p t w hw, psoe_step_idle w p.shared h0 hpc] at hw'
          simp only [Option.some.injEq] at hw'
          subst hw'
          exact ⟨h0, Or.inr rfl⟩
        · rw [step_getElem?_ne p t u htu] at hw'
          exact h.workers u w' hw'

theorem idle_run (p : Pool) (sched : List Nat) (h : Idle p) : Idle (p.run sched) := by
  induction sched generalizing p with
  | nil => exact h
  | cons t ts ih => rw [run_cons]; exact ih (p.step t) (idle_step p t h)

theorem init_getElem? (start max tcount u : Nat) (w : Worker)
    (h : (psoe_wrapper_init start max tcount).threads[u]? = some w) :
    u < tcount ∧ w = psoe_entry (argpool start max tcount u) := by
  unfold psoe_wrapper_init at h
  simp only [List.getElem?_map] at h
  cases hr : (List.range tcount)[u]? with
  | none => rw [hr] at h; cases h
  | some v =>
      obtain ⟨hlt, hv⟩ := List.getElem?_eq_some_iff.mp hr
      rw [List.length_range] at hlt
      rw [List.getElem_range] at hv
      subst hv
      rw [hr] at h
      simp only [Option.map_some', Option.some.injEq] at h
      exact ⟨hlt, h.symm⟩

theorem init_threads_length (start max tcount : Nat) :
    (psoe_wrapper_init start max tcount).threads.length = tcount := by
  unfold psoe_wrapper_init
  simp

theorem run_threads_length (p : Pool) (sched : List Nat) :
    (p.run sched).threads.length = p.threads.length := by
  induction sched generalizing p with
  | nil => rfl
  | cons t ts ih => rw [run_cons, ih, step_threads_length]

theorem idle_init (tcount : Nat) : Idle (psoe_wrapper_init 5 25 tcount) := by
  constructor
  · show List.replicate (BITNSLOTS (valtoi 5 25)) 0 = [0, 0]
    decide
  · intro u w hw
    obtain ⟨_, hw⟩ := init_getElem? 5 25 tcount u w hw
    subst hw
    have hitop : itop_of 5 25 = 0 := by decide
    refine ⟨?_, Or.inl rfl⟩
    show imax_of (itop_of 5 25) tcount u = 0
    rw [hitop]
    unfold imax_of
    simp

/-- After the schedule `0, 1, ..., k - 1` on an idle pool the first `k`
workers have returned. -/
theorem idle_run_range (p : Pool) (h : Idle p) (k : Nat) :
    ∀ u w, u < k → (p.run (List.range k)).threads[u]? = some w → w.pc = Loc.returned := by
  induction k with
  | zero => intro u w hu; omega
  | succ k ih =>
      intro u w hu hw
      rw [List.range_succ, run_append, run_cons, run_nil] at hw
      have hidle : Idle (p.run (List.range k)) := idle_run p _ h
      by_cases hku : k = u
      · subst hku
        cases hk : (p.run (List.range k)).threads[k]? with
        | none =>
            have hp : (p.run (List.range k)).step k = p.run (List.range k) := by
              unfold Pool.step; rw [hk]
            rw [hp, hk] at hw
            cases hw
        | some w₀ =>
            obtain ⟨h0, hpc⟩ := hidle.workers k w₀ hk
            rw [step_getElem?_self _ k w₀ hk, psoe_step_idle w₀ _ h0 hpc] at hw
            simp only [Option.some.injEq] at hw
            subst hw
            rfl
      · rw [step_getElem?_ne _ k u hku] at hw
        exact ih u w (by omega) hw

/-- Every completed call `psoe_wrapper(5, 25, tcount)` returns the zeroed
two-byte buffer. -/
theorem psoe_wrapper_5_25 (tcount : Nat) (sched : List Nat) (sieve : List Nat)
    (h : psoe_wrapper 5 25 tcount sched = some sieve) : sieve = [0, 0] := by
  unfold psoe_wrapper at h
  by_cases ht : tcount = 0
  · simp [ht] at h
  · rw [if_neg ht] at h
    have hidle := idle_run _ sched (idle_init tcount)
    by_cases hj : ((psoe_wrapper_init 5 25 tcount).run sched).joined = true
    · simp only [hj, if_true, Option.some.injEq] at h
      rw [← h]; exact hidle.sieve_eq
    · simp [hj] at h

/-- C3 (as stated, refuted): for `start = 5`, `max = 25` and one thread the
call returns the zeroed sieve; `main` scans `valtoi(5, 25) = 10` indices, all
bits are clear (index 0, the value 5, among them), and the scan reports ten
values. -/
theorem boundary_25_result_not_empty :
    psoe_wrapper 5 25 1 [0] = some [0, 0] ∧ valtoi 5 25 = 10 ∧
    BITTEST [0, 0] 0 = some 0 ∧ itoval 5 0 = 5 ∧
    main_scan 5 25 [0, 0] = [5, 7, 9, 11, 13, 15, 17, 19, 21, 23] := by
  decide

/-- C3 (amended): for `start = 5`, `max = 25` and every thread count
`tcount >= 1`, the schedule that lets each worker step once completes the call,
and in the sieve returned by any completed call every prime `v` of `[5, 25)`
has an index below `valtoi(5, 25)` whose bit is clear, so `main` reports it
after 2 and 3 (the sieve-internal result set is not empty). -/
theorem boundary_25_reports_primes (tcount : Nat) (ht : 1 ≤ tcount) :
    (∃ sieve, psoe_wrapper 5 25 tcount (List.range tcount) = some sieve) ∧
    ∀ sched sieve, psoe_wrapper 5 25 tcount sched = some sieve →
      ∀ v, 5 ≤ v → v < 25 → Nat.Prime v →
        valtoi 5 v < valtoi 5 25 ∧ BITTEST sieve (valtoi 5 v) = some 0 ∧
        v ∈ main_scan 5 25 sieve := by
  constructor
  · refine ⟨((psoe_wrapper_init 5 25 tcount).run (List.range tcount)).shared.sieve, ?_⟩
    have hj : ((psoe_wrapper_init 5 25 tcount).run (List.range tcount)).joined = true := by
      unfold Pool.joined
      rw [List.all_eq_true]
      intro w hw
      obtain ⟨u, hu⟩ := List.mem_iff_getElem?.mp hw
      have hlt : u < tcount := by
        have := (List.getElem?_eq_some_iff.mp hu).1
        rwa [run_threads_length, init_threads_length] at this
      simpa using idle_run_range _ (idle_init tcount) tcount u w hlt hu
    unfold psoe_wrapper
    rw [if_neg (by omega)]
    simp only [hj, if_true]
  · intro sched sieve h v h5 h25 hprime
    rw [psoe_wrapper_5_25 tcount sched sieve h]
    interval_cases v <;> first | decide | (exfalso; revert hprime; norm_num)

theorem boundary_25_reports_primes_witness :
    1 ≤ 2 ∧
    ((∃ sieve, psoe_wrapper 5 25 2 (List.range 2) = some sieve) ∧
    ∀ sched sieve, psoe_wrapper 5 25 2 sched = some sieve →
      ∀ v, 5 ≤ v → v < 25 → Nat.Prime v →
        valtoi 5 v < valtoi 5 25 ∧ BITTEST sieve (valtoi 5 v) = some 0 ∧
        v ∈ main_scan 5 25 sieve) :=
  ⟨by decide, boundary_25_reports_primes 2 (by decide)⟩

/-! ## The frontier `max_sieved_sq` -/

/-- No step of a worker lowers the frontier. -/
theorem psoe_step_frontier_le (w : Worker) (sh : Shared) :
    sh.max_sieved_sq ≤ (psoe_step w sh).2.max_sieved_sq := by
  unfold psoe_step
  split
  · split <;> exact Nat.le_refl _
  · split <;> exact Nat.le_refl _
  · split
    · exact Nat.le_refl _
    · split <;> exact Nat.le_refl _
  · split
    · split <;> exact Nat.le_refl _
    · exact Nat.le_refl _
  · split <;> exact Nat.le_refl _
  · show sh.max_sieved_sq ≤
      (if w.isq > sh.max_sieved_sq then { sh with max_sieved_sq := w.isq } else sh).max_sieved_sq
    split
    · rename_i h
      exact Nat.le_of_lt h
    · exact Nat.le_refl _
  · exact Nat.le_refl _
  · exact Nat.le_refl _

theorem step_frontier_le (p : Pool) (t : Nat) :
    p.shared.max_sieved_sq ≤ (p.step t).shared.max_sieved_sq := by
  cases hw : p.threads[t]? with
  | none =>
      have hp : p.step t = p := by unfold Pool.step; rw [hw]
      rw [hp]
  | some w =>
      rw [step_shared_self p t w hw]
      exact psoe_step_frontier_le w p.shared

theorem run_frontier_le (p : Pool) (sched : List Nat) :
    p.shared.max_sieved_sq ≤ (p.run sched).shared.max_sieved_sq := by
  induction sched generalizing p with
  | nil => exact Nat.le_refl _
  | cons t ts ih =>
      rw [run_cons]
      exact Nat.le_trans (step_frontier_le p t) (ih (p.step t))

/-- C9: the frontier `*max_sieved_sq` never decreases.  `psoe_wrapper`
initialises it to the `unsigned long` product `start * start`; no step of any
worker in any state lowers it; along every schedule its value after more steps
is at least its value before them; hence in every reachable state of
`psoe_wrapper` it is at least the initial `start * start`, which is 25 for
the `START` of `main`. -/
theorem max_sieved_sq_never_decreases :
    (∀ start max tcount,
      (psoe_wrapper_init start max tcount).shared.max_sieved_sq = (start * start) % ULONG_SIZE) ∧
    (∀ w sh, sh.max_sieved_sq ≤ (psoe_step w sh).2.max_sieved_sq) ∧
    (∀ (p : Pool) (s₁ s₂ : List Nat),
      (p.run s₁).shared.max_sieved_sq ≤ (p.run (s₁ ++ s₂)).shared.max_sieved_sq) ∧
    (∀ start max tcount sched,
      (start * start) % ULONG_SIZE ≤
        ((psoe_wrapper_init start max tcount).run sched).shared.max_sieved_sq) ∧
    (∀ max tcount sched,
      5 * 5 ≤ ((psoe_wrapper_init 5 max tcount).run sched).shared.max_sieved_sq) := by
  refine ⟨fun _ _ _ => rfl, psoe_step_frontier_le, ?_, ?_, ?_⟩
  · intro p s₁ s₂
    rw [run_append]
    exact run_frontier_le (p.run s₁) s₂
  · intro start max tcount sched
    exact run_frontier_le (psoe_wrapper_init start max tcount) sched
  · intro max tcount sched
    exact run_frontier_le (psoe_wrapper_init 5 max tcount) sched

/-! ## The wait loop -/

set_option maxRecDepth 1000000 in
/-- C10: in `psoe_wrapper(5, 700, 8)` (eight threads, the configuration the
source documents for `start = 5`), let thread 2 run alone for 77 steps: it
processes its first index 2 and comes to its second index 10.  Thread 2 is
then past the wait loop for index 10 (the check `10 > *max_sieved_sq` saw the
frontier 81) and stands before `BITTEST(sieve, 10)`, although the candidate of
index 0 on thread 0, whose square `25` is `<= itoval(5, 10) = 25`, has not
begun its crossing-off pass: thread 0 is still at its entry with `i = 0`.
Bit 10 is still clear, and with its next two steps thread 2 takes 25 for a
prime, enters the crossing-off loop at `j = 625` and marks it (`j` is then
650). -/
theorem wait_loop_passed_before_advance :
    ((((psoe_wrapper_init 5 700 8).run (List.replicate 77 2)).threads.map
        fun w => (w.args.tid, w.pc, w.i)) =
      [(0, Loc.loopCond, 0), (1, Loc.loopCond, 1), (2, Loc.bitTest, 10), (3, Loc.loopCond, 3),
       (4, Loc.loopCond, 4), (5, Loc.loopCond, 5), (6, Loc.loopCond, 6),
       (7, Loc.loopCond, 7)]) ∧
    ((psoe_wrapper_init 5 700 8).run (List.replicate 77 2)).shared.max_sieved_sq = 81 ∧
    0 ∈ assigned (itop_of 5 700) 8 0 ∧
    itoval 5 0 * itoval 5 0 ≤ itoval 5 10 ∧
    BITTEST ((psoe_wrapper_init 5 700 8).run (List.replicate 77 2)).shared.sieve 10 = some 0 ∧
    ((((psoe_wrapper_init 5 700 8).run (List.replicate 79 2)).threads.map
        fun w => (w.args.tid, w.pc, w.i, w.j)) =
      [(0, Loc.loopCond, 0, 0), (1, Loc.loopCond, 1, 0), (2, Loc.crossOff, 10, 650),
       (3, Loc.loopCond, 3, 0), (4, Loc.loopCond, 4, 0), (5, Loc.loopCond, 5, 0),
       (6, Loc.loopCond, 6, 0), (7, Loc.loopCond, 7, 0)]) := by
  decide

/-! ## More on the index mapping -/

/-- C20: for every odd `start` and every `unsigned long` value `v >= start`,
`itoval(start, valtoi(start, v))` is `v` when `v` is odd and `v - 1` when `v`
is even. -/
theorem itoval_valtoi (start v : Nat) (hs : start % 2 = 1) (hv : start ≤ v)
    (hrep : v < ULONG_SIZE) :
    (v % 2 = 1 → itoval start (valtoi start v) = v) ∧
    (v % 2 = 0 → itoval start (valtoi start v) = v - 1) := by
  unfold itoval valtoi
  rw [ulong_size_eq] at *
  constructor <;> intro hpar <;> omega

theorem itoval_valtoi_witness :
    5 % 2 = 1 ∧ 5 ≤ 30 ∧ 30 < ULONG_SIZE ∧
    ((30 % 2 = 1 → itoval 5 (valtoi 5 30) = 30) ∧
     (30 % 2 = 0 → itoval 5 (valtoi 5 30) = 30 - 1)) :=
  ⟨by decide, by decide, by decide, itoval_valtoi 5 30 (by decide) (by decide) (by decide)⟩

/-- C15: for every odd `start >= 3` and every thread count `tcnt` with
`tcnt < start * (start - 1) / 2 + 1`, the first row of every thread is below
the square of the start value: `itoval(start, tid) < start * start` for every
`tid < tcnt`. -/
theorem first_row_below_start_square (start tcnt tid : Nat) (_hodd : start % 2 = 1)
    (h3 : 3 ≤ start) (ht : tcnt < start * (start - 1) / 2 + 1) (htid : tid < tcnt) :
    itoval start tid < start * start := by
  have hle : itoval start tid ≤ start + 2 * tid := by
    unfold itoval
    exact Nat.mod_le _ _
  have hsq : start * start = start * (start - 1) + start := by
    obtain ⟨k, rfl⟩ : ∃ k, start = k + 1 := ⟨start - 1, by omega⟩
    simp only [Nat.add_sub_cancel]
    ring
  have hdiv : start * (start - 1) / 2 * 2 ≤ start * (start - 1) := Nat.div_mul_le_self _ _
  omega

theorem first_row_below_start_square_witness :
    5 % 2 = 1 ∧ 3 ≤ 5 ∧ 8 < 5 * (5 - 1) / 2 + 1 ∧ 7 < 8 ∧ itoval 5 7 < 5 * 5 :=
  ⟨by decide, by decide, by decide, by decide,
    first_row_below_start_square 5 8 7 (by decide) (by decide) (by decide) (by decide)⟩

/-! ## The bound `itop` -/

/-- For `start = 5` and `max >= 25` the bound `itop` counts the indices whose
value lies strictly below the floor square root of `max`. -/
theorem lt_itop_iff (max i : Nat) (h25 : 25 ≤ max) (hrep : max < ULONG_SIZE) :
    i < itop_of 5 max ↔ 2 * i + 6 ≤ csqrt max := by
  have hlo : 5 ≤ csqrt max := by
    rw [csqrt_eq_sqrt]
    exact Nat.le_sqrt.mpr (by omega)
  have hhi : csqrt max < 4294967296 := by
    rw [csqrt_eq_sqrt]
    apply Nat.sqrt_lt.mpr
    rw [ulong_size_eq] at hrep
    omega
  unfold itop_of valtoi
  rw [ulong_size_eq]
  omega

set_option maxRecDepth 100000 in
/-- C13: for `start = 5` and `max = 25`, `psoe_wrapper` computes
`itop = valtoi(5, 5 + 1) = 0`, so index 0 is not below `itop` although
`itoval(5, 0)^2 = 25 <= 25`.  Likewise for `max = 123`: `itop = 3`, index 3
(the value 11, `11^2 = 121 <= 123`) is not below it; the single worker never
crosses off from 121, and in the sieve it returns the bit of 121 (index 58) is
clear, so `main` prints 121. -/
theorem itop_misses_odd_square_root :
    (itop_of 5 25 = 0 ∧ itoval 5 0 ^ 2 ≤ 25 ∧ ¬ (0 < itop_of 5 25)) ∧
    (itop_of 5 123 = 3 ∧ itoval 5 3 ^ 2 ≤ 123 ∧ ¬ (3 < itop_of 5 123)) ∧
    psoe_wrapper 5 123 1 (List.replicate 55 0) = some [0, 148, 82, 106, 249, 237, 188, 3] ∧
    valtoi 5 121 = 58 ∧ 58 < valtoi 5 123 ∧
    BITTEST [0, 148, 82, 106, 249, 237, 188, 3] 58 = some 0 ∧
    121 ∈ main_scan 5 123 [0, 148, 82, 106, 249, 237, 188, 3] := by
  decide

/-! ## A worker run on its own -/

theorem psoe_step_fault (w : Worker) (sh : Shared) (h : w.pc = Loc.fault) :
    psoe_step w sh = (w, sh) := by
  unfold psoe_step
  rw [h]

theorem psoe_run_add (a b : Nat) (w : Worker) (sh : Shared) :
    psoe_run (a + b) w sh = psoe_run b (psoe_run a w sh).1 (psoe_run a w sh).2 := by
  induction a generalizing w sh with
  | zero => simp [psoe_run]
  | succ a ih =>
      rw [Nat.add_right_comm]
      exact ih (psoe_step w sh).1 (psoe_step w sh).2

theorem psoe_run_returned (n : Nat) (w : Worker) (sh : Shared) (h : w.pc = Loc.returned) :
    psoe_run n w sh = (w, sh) := by
  induction n with
  | zero => rfl
  | succ n ih =>
      unfold psoe_run
      rw [psoe_step_returned w sh h]
      exact ih

theorem psoe_run_fault (n : Nat) (w : Worker) (sh : Shared) (h : w.pc = Loc.fault) :
    psoe_run n w sh = (w, sh) := by
  induction n with
  | zero => rfl
  | succ n ih =>
      unfold psoe_run
      rw [psoe_step_fault w sh h]
      exact ih

/-- A worker that faults after `n₀` steps has not returned after any number of
steps. -/
theorem psoe_run_ne_returned_of_fault (n₀ n : Nat) (w : Worker) (sh : Shared)
    (hf : (psoe_run n₀ w sh).1.pc = Loc.fault) : (psoe_run n w sh).1.pc ≠ Loc.returned := by
  intro hr
  by_cases hle : n ≤ n₀
  · have hsplit : n₀ = n + (n₀ - n) := by omega
    rw [hsplit, psoe_run_add, psoe_run_returned _ _ _ hr, hr] at hf
    cases hf
  · have hsplit : n = n₀ + (n - n₀) := by omega
    rw [hsplit, psoe_run_add, psoe_run_fault _ _ _ hf, hf] at hr
    cases hr

/-- With one thread, the result of `psoe_wrapper` depends only on the number
of steps the schedule gives to thread 0. -/
theorem psoe_wrapper_single_sched (start max : Nat) (sched : List Nat) :
    psoe_wrapper start max 1 sched =
      psoe_wrapper start max 1 (List.replicate (sched.count 0) 0) := by
  unfold psoe_wrapper
  rw [run_single _ sched (init_threads_length start max 1)]

/-- With one thread, a worker that faults makes every call of `psoe_wrapper`
fail to return a sieve. -/
theorem psoe_wrapper_single_none_of_fault (start max n₀ : Nat)
    (hf : (psoe_run n₀ (psoe_entry (argpool start max 1 0))
      (psoe_wrapper_init start max 1).shared).1.pc = Loc.fault) (sched : List Nat) :
    psoe_wrapper start max 1 sched = none := by
  rw [psoe_wrapper_single_sched, psoe_wrapper_single]
  unfold psoe
  rw [if_neg (psoe_run_ne_returned_of_fault n₀ _ _ _ hf)]
  rfl

/-- With one thread, all completed calls of `psoe_wrapper` return the same
sieve. -/
theorem psoe_wrapper_single_unique (start max : Nat) (s₁ s₂ : List Nat) (v₁ v₂ : List Nat)
    (h₁ : psoe_wrapper start max 1 s₁ = some v₁) (h₂ : psoe_wrapper start max 1 s₂ = some v₂) :
    v₁ = v₂ := by
  rw [psoe_wrapper_single_sched, psoe_wrapper_single] at h₁ h₂
  unfold psoe at h₁ h₂
  split at h₁
  · rename_i hr₁
    split at h₂
    · rename_i hr₂
      simp only [Option.map_some', Option.some.injEq] at h₁ h₂
      rw [← h₁, ← h₂]
      by_cases hle : s₁.count 0 ≤ s₂.count 0
      · have hsplit : s₂.count 0 = s₁.count 0 + (s₂.count 0 - s₁.count 0) := by omega
        rw [hsplit, psoe_run_add, psoe_run_returned _ _ _ hr₁]
      · have hsplit : s₁.count 0 = s₂.count 0 + (s₁.count 0 - s₂.count 0) := by omega
        rw [hsplit, psoe_run_add, psoe_run_returned _ _ _ hr₂]
    · cases h₂
  · cases h₁

/-! ## The crossing-off loop -/

theorem valtoi_odd_multiple_ne (k : Nat) (h : 25 + 2 * k * 5 < 100) :
    valtoi 5 (25 + 2 * k * 5) ≠ 12 := by
  have hk : k < 8 := by omega
  interval_cases k <;> decide

set_option maxRecDepth 100000 in
/-- C12: in `psoe_wrapper(5, 100, 1)` the first iteration of the worker
(`i = 0`, `v = itoval(5, 0) = 5`, bit 0 clear) takes exactly 21 steps and hands to
`BITSET` the indices `valtoi(5, j)` for `j = 25, 30, 35, ..., 95`, the loop
stepping by `ival` and not by `2 * ival`.  Index 12 is among them; it is
`valtoi(5, m)` for no `m = 5 * 5 + 2 * k * 5 < 100`, and it stands for
`itoval(5, 12) = 29`, which is not a multiple of 5. -/
theorem crossing_off_marks_even_multiples :
    BITTEST (psoe_wrapper_init 5 100 1).shared.sieve 0 = some 0 ∧
    psoe_iter 20 (psoe_entry (argpool 5 100 1 0)) (psoe_wrapper_init 5 100 1).shared = none ∧
    (psoe_iter 21 (psoe_entry (argpool 5 100 1 0)) (psoe_wrapper_init 5 100 1).shared).isSome ∧
    psoe_marks 21 (psoe_entry (argpool 5 100 1 0)) (psoe_wrapper_init 5 100 1).shared =
      [10, 12, 15, 17, 20, 22, 25, 27, 30, 32, 35, 37, 40, 42, 45] ∧
    valtoi 5 30 = 12 ∧
    (∀ k, 25 + 2 * k * 5 < 100 → valtoi 5 (25 + 2 * k * 5) ≠ 12) ∧
    itoval 5 12 = 29 ∧ ¬ (itoval 5 0 ∣ itoval 5 12) := by
  refine ⟨by decide, by decide, by decide, by decide, by decide, valtoi_odd_multiple_ne,
    by decide, by decide⟩

/-! ## Accesses outside the sieve buffer -/

set_option maxRecDepth 100000 in
theorem fault_5_86 :
    (psoe_run 16 (psoe_entry (argpool 5 86 1 0)) (psoe_wrapper_init 5 86 1).shared).1.pc =
      Loc.fault := by
  decide

set_option maxRecDepth 100000 in
/-- C16: in `psoe_wrapper(5, 86, 1)` the buffer has `BITNSLOTS(valtoi(5, 86)) = 5`
bytes, that is 40 bits.  The crossing-off pass of the first iteration hands
`valtoi(5, j)` to `BITSET` for `j = 25, 30, ..., 85`; the last of them,
`valtoi(5, 85) = 40`, is not below 40: the write goes to `sieve[5]`, outside
the buffer.  In the embedding the worker faults there and no call returns a
sieve. -/
theorem crossing_off_writes_past_buffer :
    BITNSLOTS (valtoi 5 86) = 5 ∧ 8 * BITNSLOTS (valtoi 5 86) = 40 ∧
    psoe_marks 16 (psoe_entry (argpool 5 86 1 0)) (psoe_wrapper_init 5 86 1).shared =
      [10, 12, 15, 17, 20, 22, 25, 27, 30, 32, 35, 37, 40] ∧
    85 < 86 ∧ valtoi 5 85 = 40 ∧ ¬ (valtoi 5 85 < 8 * BITNSLOTS (valtoi 5 86)) ∧
    BITSET (psoe_run 15 (psoe_entry (argpool 5 86 1 0))
      (psoe_wrapper_init 5 86 1).shared).2.sieve 40 = none ∧
    ((psoe_run 16 (psoe_entry (argpool 5 86 1 0)) (psoe_wrapper_init 5 86 1).shared).1.pc =
      Loc.fault ∧
     (psoe_run 16 (psoe_entry (argpool 5 86 1 0)) (psoe_wrapper_init 5 86 1).shared).1.j = 85) ∧
    ∀ sched, psoe_wrapper 5 86 1 sched = none := by
  refine ⟨by decide, by decide, by decide, by decide, by decide, by decide, by decide,
    by decide, psoe_wrapper_single_none_of_fault 5 86 16 fault_5_86⟩

set_option maxRecDepth 100000 in
theorem fault_5_9 :
    (psoe_run 51 (psoe_entry (argpool 5 9 1 0)) (psoe_wrapper_init 5 9 1).shared).1.pc =
      Loc.fault := by
  decide

set_option maxRecDepth 100000 in
/-- C17: in `psoe_wrapper(5, 9, 1)` the square root is 3 and
`itop = valtoi(5, 4)` wraps around to `2^63 - 1`, while the buffer has
`BITNSLOTS(valtoi(5, 9)) = 1` byte, 8 bits.  The single worker goes through the
indices 0 to 7 and after 50 steps stands before `BITTEST(sieve, 8)` with
`8 < itop`; index 8 is not below 8, the read is outside the buffer, and in the
embedding the worker faults and no call returns a sieve. -/
theorem itop_wraps_around :
    csqrt 9 = 3 ∧ itop_of 5 9 = 9223372036854775807 ∧ itop_of 5 9 = 2 ^ 63 - 1 ∧
    8 * BITNSLOTS (valtoi 5 9) = 8 ∧ 8 < itop_of 5 9 ∧ ¬ (8 < 8 * BITNSLOTS (valtoi 5 9)) ∧
    (((psoe_run 50 (psoe_entry (argpool 5 9 1 0)) (psoe_wrapper_init 5 9 1).shared).1.pc,
      (psoe_run 50 (psoe_entry (argpool 5 9 1 0)) (psoe_wrapper_init 5 9 1).shared).1.i) =
      (Loc.bitTest, 8)) ∧
    BITTEST (psoe_run 50 (psoe_entry (argpool 5 9 1 0))
      (psoe_wrapper_init 5 9 1).shared).2.sieve 8 = none ∧
    (psoe_run 51 (psoe_entry (argpool 5 9 1 0)) (psoe_wrapper_init 5 9 1).shared).1.pc =
      Loc.fault ∧
    ∀ sched, psoe_wrapper 5 9 1 sched = none := by
  refine ⟨by decide, by decide, by decide, by decide, by decide, by decide, by decide,
    by decide, by decide, psoe_wrapper_single_none_of_fault 5 9 51 fault_5_9⟩

/-! ## One iteration of the worker -/

/-- A step inside an iteration either ends the iteration, leaving the frontier
at the maximum of its old value and `isq`, or stays inside the iteration. -/
theorem psoe_step_in_iteration (isq m : Nat) (w : Worker) (sh : Shared)
    (h : InIteration isq m w sh) :
    ((psoe_step w sh).1.pc = Loc.loopCond ∧ (psoe_step w sh).2.max_sieved_sq = max m isq ∧
        (psoe_step w sh).2.sieve = sh.sieve) ∨
    ((psoe_step w sh).1.pc ≠ Loc.loopCond ∧
        InIteration isq m (psoe_step w sh).1 (psoe_step w sh).2) := by
  obtain ⟨hne, hrest⟩ := h
  rcases w with ⟨args, pc, i, ival, wisq, j⟩
  cases pc with
  | loopCond => exact absurd rfl hne
  | returned =>
      right
      rw [psoe_step_returned _ _ rfl]
      exact ⟨hne, hne, hrest⟩
  | fault =>
      right
      rw [psoe_step_fault _ _ rfl]
      exact ⟨hne, hne, hrest⟩
  | waitLoop =>
      right
      have hq : wisq = isq ∧ sh.max_sieved_sq = m := by simpa using hrest
      simp only [psoe_step]
      split
      · exact ⟨by simp, by simp, Or.inr (Or.inr hq)⟩
      · exact ⟨by simp, by simp, Or.inr (Or.inr hq)⟩
  | bitTest =>
      right
      have hq : wisq = isq ∧ sh.max_sieved_sq = m := by simpa using hrest
      simp only [psoe_step]
      split
      · exact ⟨by simp, by simp, Or.inl rfl⟩
      · split
        · exact ⟨by simp, by simp, Or.inr (Or.inr hq)⟩
        · exact ⟨by simp, by simp, Or.inr (Or.inr hq)⟩
  | crossOff =>
      right
      have hq : wisq = isq ∧ sh.max_sieved_sq = m := by simpa using hrest
      simp only [psoe_step]
      split
      · split
        · exact ⟨by simp, by simp, Or.inl rfl⟩
        · exact ⟨by simp, by simp, Or.inr (Or.inr hq)⟩
      · exact ⟨by simp, by simp, Or.inr (Or.inr hq)⟩
  | upMax =>
      have hq : wisq = isq ∧ sh.max_sieved_sq = m := by simpa using hrest
      simp only [psoe_step]
      split
      · rename_i hlt
        left
        refine ⟨rfl, ?_, rfl⟩
        rw [hq.2, Nat.max_eq_left]
        rw [← hq.1, ← hq.2]
        exact Nat.le_of_lt hlt
      · right
        exact ⟨by simp, by simp, Or.inr (Or.inr hq)⟩
  | lockedUpdate =>
      have hq : wisq = isq ∧ sh.max_sieved_sq = m := by simpa using hrest
      left
      simp only [psoe_step]
      refine ⟨rfl, ?_, ?_⟩
      · split
        · rename_i hgt
          rw [← hq.1, ← hq.2, Nat.max_eq_right (Nat.le_of_lt hgt)]
        · rename_i hgt
          rw [← hq.1, ← hq.2, Nat.max_eq_left (Nat.le_of_not_lt hgt)]
      · split <;> rfl

/-- Whenever an iteration entered with local `isq` and frontier `m` ends, the
frontier is the maximum of `m` and `isq`. -/
theorem psoe_iter_in_iteration (isq m n : Nat) (w : Worker) (sh : Shared) (r : Worker × Shared)
    (h : InIteration isq m w sh) (hr : psoe_iter n w sh = some r) :
    r.2.max_sieved_sq = max m isq := by
  induction n generalizing w sh with
  | zero => cases hr
  | succ n ih =>
      unfold psoe_iter at hr
      rcases psoe_step_in_iteration isq m w sh h with ⟨hpc, hmax, _⟩ | ⟨hpc, hin⟩
      · rw [if_pos hpc] at hr
        simp only [Option.some.injEq] at hr
        rw [← hr]; exact hmax
      · rw [if_neg hpc] at hr
        exact ih _ _ hin hr

theorem psoe_step_loopCond (w : Worker) (sh : Shared) (hpc : w.pc = Loc.loopCond) :
    psoe_step w sh =
      if w.i < w.args.imax then
        ({ w with pc := Loc.waitLoop, ival := itoval w.args.start w.i,
                  isq := (itoval w.args.start w.i * itoval w.args.start w.i) % ULONG_SIZE }, sh)
      else ({ w with pc := Loc.returned }, sh) := by
  unfold psoe_step
  rw [hpc]

/-- On the bounds-checking machine: whenever an iteration entered at the loop
condition with index `i` and frontier `m` ends, the frontier is the maximum of
`m` and `isq` (the `unsigned long` product `ival * ival`), and it is `m` itself
when `isq <= m`.  On the composite path (wait passed, bit `i` set) the
iteration ends within five steps and leaves the sieve as it was.  That every
iteration ends, on either path, is shown below for the memory without
bounds. -/
theorem psoe_iter_frontier_of_some (w : Worker) (sh : Shared) (hpc : w.pc = Loc.loopCond) :
    (∀ n r, psoe_iter n w sh = some r →
      r.2.max_sieved_sq = max sh.max_sieved_sq
        ((itoval w.args.start w.i * itoval w.args.start w.i) % ULONG_SIZE) ∧
      ((itoval w.args.start w.i * itoval w.args.start w.i) % ULONG_SIZE ≤ sh.max_sieved_sq →
        r.2.max_sieved_sq = sh.max_sieved_sq)) ∧
    (∀ v, w.i < w.args.imax → w.i ≤ sh.max_sieved_sq → BITTEST sh.sieve w.i = some v → v ≠ 0 →
      ∃ r, psoe_iter 5 w sh = some r ∧ r.2.sieve = sh.sieve) ∧
    (itoval w.args.start w.i < 2 ^ 32 →
      (itoval w.args.start w.i * itoval w.args.start w.i) % ULONG_SIZE =
        itoval w.args.start w.i ^ 2) := by
  refine ⟨?_, ?_, ?_⟩
  · intro n r hr
    have hmax : r.2.max_sieved_sq = max sh.max_sieved_sq
        ((itoval w.args.start w.i * itoval w.args.start w.i) % ULONG_SIZE) := by
      cases n with
      | zero => cases hr
      | succ n =>
          unfold psoe_iter at hr
          rw [psoe_step_loopCond w sh hpc] at hr
          by_cases hi : w.i < w.args.imax
          · rw [if_pos hi] at hr
            rw [if_neg (by simp)] at hr
            exact psoe_iter_in_iteration _ _ n _ _ r
              ⟨by simp, Or.inr (Or.inr ⟨rfl, rfl⟩)⟩ hr
          · rw [if_neg hi] at hr
            rw [if_neg (by simp)] at hr
            exact psoe_iter_in_iteration _ _ n _ _ r ⟨by simp, Or.inr (Or.inl rfl)⟩ hr
    exact ⟨hmax, fun hle => by rw [hmax, Nat.max_eq_left hle]⟩
  · intro v hi hwait hbit hv
    rcases w with ⟨args, pc, i, ival, wisq, j⟩
    simp only at hpc hi hwait hbit
    subst hpc
    by_cases hlt : (itoval args.start i * itoval args.start i) % ULONG_SIZE < sh.max_sieved_sq
    · simp [psoe_iter, psoe_step, psoe_continue, hi, Nat.not_lt.mpr hwait, hbit, hv, hlt]
    · simp [psoe_iter, psoe_step, psoe_continue, hi, Nat.not_lt.mpr hwait, hbit, hv, hlt]
      split <;> rfl
  · intro h32
    have hlt : itoval w.args.start w.i * itoval w.args.start w.i < ULONG_SIZE := by
      rw [ulong_size_eq]
      have h := Nat.mul_lt_mul'' h32 h32
      norm_num at h
      exact h
    rw [Nat.mod_eq_of_lt hlt, sq]

/-! ## The index sets of the threads -/

theorem loop_indices_succ (fuel i imax tcount : Nat) :
    loop_indices (fuel + 1) i imax tcount =
      if i < imax then i :: loop_indices fuel ((i + tcount) % ULONG_SIZE) imax tcount
      else [] := rfl

/-- The loop visits its start index when that is below the bound. -/
theorem mem_loop_indices_head (fuel i imax tcount : Nat) (hi : i < imax) :
    i ∈ loop_indices (fuel + 1) i imax tcount := by
  rw [loop_indices_succ, if_pos hi]
  exact List.mem_cons_self _ _

/-- The loop visits whatever it visits from its second iteration on. -/
theorem mem_loop_indices_next (fuel i imax tcount x : Nat) (hi : i < imax)
    (hx : x ∈ loop_indices fuel ((i + tcount) % ULONG_SIZE) imax tcount) :
    x ∈ loop_indices (fuel + 1) i imax tcount := by
  rw [loop_indices_succ, if_pos hi]
  exact List.mem_cons_of_mem _ hx

/-- Without wrap-around of the increment the loop visits the arithmetic
progression from `i` with step `tcount` below `imax`. -/
theorem mem_loop_indices (tcount imax : Nat) (hrep : imax + tcount ≤ ULONG_SIZE)
    (fuel i x : Nat) :
    x ∈ loop_indices fuel i imax tcount ↔ ∃ k, k < fuel ∧ x = i + k * tcount ∧ x < imax := by
  induction fuel generalizing i with
  | zero =>
      constructor
      · intro h; cases h
      · rintro ⟨k, hk, _⟩; omega
  | succ fuel ih =>
      rw [loop_indices_succ]
      by_cases hi : i < imax
      · rw [if_pos hi, List.mem_cons, Nat.mod_eq_of_lt (by omega), ih]
        constructor
        · rintro (rfl | ⟨k, hk, hx, hlt⟩)
          · exact ⟨0, by omega, by simp, hi⟩
          · refine ⟨k + 1, by omega, ?_, hlt⟩
            rw [Nat.succ_mul]; omega
        · rintro ⟨k, hk, hx, hlt⟩
          cases k with
          | zero => left; simpa using hx
          | succ k =>
              right
              refine ⟨k, by omega, ?_, hlt⟩
              rw [Nat.succ_mul] at hx; omega
      · rw [if_neg hi]
        constructor
        · intro h; cases h
        · rintro ⟨k, _, hx, hlt⟩
          have : i ≤ x := by rw [hx]; exact Nat.le_add_right _ _
          omega

theorem imax_of_bounds (itop tcount tid : Nat) (hrep : itop + tcount < ULONG_SIZE) :
    itop ≤ imax_of itop tcount tid ∧ imax_of itop tcount tid ≤ itop + tcount := by
  unfold imax_of
  split
  · rw [Nat.mod_eq_of_lt hrep]; omega
  · omega

/-- Without wrap-around thread `tid` is assigned the arithmetic progression
from `tid` with step `tcount` below its bound. -/
theorem mem_assigned (itop tcount tid x : Nat) (ht : 1 ≤ tcount)
    (hrep : itop + 2 * tcount ≤ ULONG_SIZE) :
    x ∈ assigned itop tcount tid ↔
      ∃ k, x = tid + k * tcount ∧ x < imax_of itop tcount tid := by
  have hb := imax_of_bounds itop tcount tid (by omega)
  unfold assigned
  rw [mem_loop_indices tcount _ (by omega)]
  constructor
  · rintro ⟨k, _, hx, hlt⟩
    exact ⟨k, hx, hlt⟩
  · rintro ⟨k, hx, hlt⟩
    refine ⟨k, ?_, hx, hlt⟩
    have hk : k ≤ k * tcount := Nat.le_mul_of_pos_right k ht
    omega

/-- The fourth index visited by the loop, when the first four are below the
bound. -/
theorem mem_loop_indices_fourth (fuel i imax tcount : Nat) (h₀ : i < imax)
    (h₁ : (i + tcount) % ULONG_SIZE < imax)
    (h₂ : ((i + tcount) % ULONG_SIZE + tcount) % ULONG_SIZE < imax)
    (h₃ : (((i + tcount) % ULONG_SIZE + tcount) % ULONG_SIZE + tcount) % ULONG_SIZE < imax) :
    (((i + tcount) % ULONG_SIZE + tcount) % ULONG_SIZE + tcount) % ULONG_SIZE ∈
      loop_indices (fuel + 4) i imax tcount :=
  mem_loop_indices_next _ _ _ _ _ h₀
    (mem_loop_indices_next _ _ _ _ _ h₁
      (mem_loop_indices_next _ _ _ _ _ h₂ (mem_loop_indices_head _ _ _ _ h₃)))

/-- The list of visited indices can leave the arithmetic progression only when
the increment `i += tcount` wraps around.  For `itop = 2^63` and
`tcount = 2^63 - 1` thread 0 has the bound `2^64 - 1`; its loop visits `0`,
`2^63 - 1`, `2^64 - 2`, and then wraps around to `2^63 - 3`, the first index of
thread `2^63 - 3`.  No call of `psoe_wrapper` gets there: `valtoi` halves, so
`itop` is below `2^63`. -/
theorem assigned_overlap_on_wrap :
    1 ≤ 9223372036854775807 ∧
    9223372036854775808 + 9223372036854775807 < ULONG_SIZE ∧
    0 < 9223372036854775807 ∧ 9223372036854775805 < 9223372036854775807 ∧
    (0 : Nat) ≠ 9223372036854775805 ∧
    imax_of 9223372036854775808 9223372036854775807 0 = 18446744073709551615 ∧
    imax_of 9223372036854775808 9223372036854775807 9223372036854775805 =
      9223372036854775808 ∧
    9223372036854775805 ∈ assigned 9223372036854775808 9223372036854775807 0 ∧
    9223372036854775805 ∈
      assigned 9223372036854775808 9223372036854775807 9223372036854775805 := by
  have hi₀ : imax_of 9223372036854775808 9223372036854775807 0 = 18446744073709551615 := by
    decide
  have hi₁ : imax_of 9223372036854775808 9223372036854775807 9223372036854775805 =
      9223372036854775808 := by decide
  refine ⟨by decide, by decide, by decide, by decide, by decide, hi₀, hi₁, ?_, ?_⟩
  · unfold assigned
    rw [hi₀]
    exact mem_loop_indices_fourth 18446744073709551611 0 18446744073709551615
      9223372036854775807 (by decide) (by decide) (by decide) (by decide)
  · unfold assigned
    rw [hi₁]
    exact mem_loop_indices_head 9223372036854775807 9223372036854775805 9223372036854775808
      9223372036854775807 (by decide)

/-! ## The single worker never waits -/

theorem succ_le_square (i : Nat) : i + 1 ≤ (5 + 2 * i) * (5 + 2 * i) := by
  nlinarith

theorem square_eq_of_small (i : Nat) (hi : i < 2147483645) :
    (itoval 5 i * itoval 5 i) % ULONG_SIZE = (5 + 2 * i) * (5 + 2 * i) := by
  have hval : itoval 5 i = 5 + 2 * i := by
    unfold itoval
    rw [ulong_size_eq]
    omega
  rw [hval]
  apply Nat.mod_eq_of_lt
  rw [ulong_size_eq]
  have h1 : 5 + 2 * i < 4294967296 := by omega
  have h2 := Nat.mul_lt_mul'' h1 h1
  norm_num at h2
  exact h2

theorem solo_inv_step (w : Worker) (sh : Shared) (h : SoloInv w sh) :
    SoloInv (psoe_step w sh).1 (psoe_step w sh).2 := by
  obtain ⟨hs, ht, hm, hle, hbody⟩ := h
  rcases w with ⟨args, pc, i, ival, wisq, j⟩
  simp only at hs ht hm hle hbody
  cases pc with
  | loopCond =>
      simp only [psoe_step]
      split
      · rename_i hi
        refine ⟨hs, ht, hm, hle, fun _ _ _ => ⟨hi, ?_⟩⟩
        simp only [hs]
        exact square_eq_of_small i (by omega)
      · exact ⟨hs, ht, hm, hle, fun _ hr _ => absurd rfl hr⟩
  | returned =>
      rw [psoe_step_returned _ _ rfl]
      exact ⟨hs, ht, hm, hle, hbody⟩
  | fault =>
      rw [psoe_step_fault _ _ rfl]
      exact ⟨hs, ht, hm, hle, hbody⟩
  | waitLoop =>
      have hb := hbody (by simp) (by simp) (by simp)
      simp only [psoe_step]
      split
      · exact ⟨hs, ht, hm, hle, fun _ _ _ => hb⟩
      · exact ⟨hs, ht, hm, hle, fun _ _ _ => hb⟩
  | bitTest =>
      have hb := hbody (by simp) (by simp) (by simp)
      simp only [psoe_step]
      split
      · exact ⟨hs, ht, hm, hle, fun _ _ hf => absurd rfl hf⟩
      · split
        · exact ⟨hs, ht, hm, hle, fun _ _ _ => hb⟩
        · exact ⟨hs, ht, hm, hle, fun _ _ _ => hb⟩
  | crossOff =>
      have hb := hbody (by simp) (by simp) (by simp)
      simp only [psoe_step]
      split
      · split
        · exact ⟨hs, ht, hm, hle, fun _ _ hf => absurd rfl hf⟩
        · exact ⟨hs, ht, hm, hle, fun _ _ _ => hb⟩
      · exact ⟨hs, ht, hm, hle, fun _ _ _ => hb⟩
  | upMax =>
      have hb := hbody (by simp) (by simp) (by simp)
      simp only [psoe_step]
      split
      · rename_i hlt
        refine ⟨hs, ht, hm, ?_, fun hc _ _ => absurd rfl hc⟩
        have hsq := succ_le_square i
        have hmod : (i + args.tcount) % ULONG_SIZE ≤ i + args.tcount := Nat.mod_le _ _
        simp only [psoe_continue]
        simp only at hlt hb
        omega
      · exact ⟨hs, ht, hm, hle, fun _ _ _ => hb⟩
  | lockedUpdate =>
      have hb := hbody (by simp) (by simp) (by simp)
      simp only [psoe_step]
      refine ⟨hs, ht, hm, ?_, fun hc _ _ => absurd rfl hc⟩
      have hsq := succ_le_square i
      have hmod : (i + args.tcount) % ULONG_SIZE ≤ i + args.tcount := Nat.mod_le _ _
      simp only [psoe_continue]
      simp only at hb
      split
      · simp only
        omega
      · omega

theorem solo_inv_run (n : Nat) (w : Worker) (sh : Shared) (h : SoloInv w sh) :
    SoloInv (psoe_run n w sh).1 (psoe_run n w sh).2 := by
  induction n generalizing w sh with
  | zero => exact h
  | succ n ih => exact ih _ _ (solo_inv_step w sh h)

theorem itop_of_le (max : Nat) (h25 : 25 ≤ max) (hrep : max < ULONG_SIZE) :
    itop_of 5 max ≤ 2147483645 := by
  have hhi : csqrt max < 4294967296 := by
    rw [csqrt_eq_sqrt]
    apply Nat.sqrt_lt.mpr
    rw [ulong_size_eq] at hrep
    omega
  have hlo : 5 ≤ csqrt max := by
    rw [csqrt_eq_sqrt]
    exact Nat.le_sqrt.mpr (by omega)
  unfold itop_of valtoi
  rw [ulong_size_eq]
  omega

theorem solo_inv_init (max : Nat) (h25 : 25 ≤ max) (hrep : max < ULONG_SIZE) :
    SoloInv (psoe_entry (argpool 5 max 1 0)) (psoe_wrapper_init 5 max 1).shared := by
  refine ⟨rfl, rfl, ?_, ?_, fun hc _ _ => absurd rfl hc⟩
  · show imax_of (itop_of 5 max) 1 0 ≤ 2147483645
    unfold imax_of
    rw [Nat.mod_one, if_neg (by omega)]
    exact itop_of_le max h25 hrep
  · show 0 ≤ (5 * 5) % ULONG_SIZE
    exact Nat.zero_le _

/-- Whenever the single worker of `psoe_wrapper(5, max, 1)` stands in the wait
loop, its index is not above the frontier: the predicate `i > *max_sieved_sq`
is false and the worker passes. -/
theorem single_worker_never_waits (max n : Nat) (h25 : 25 ≤ max) (hrep : max < ULONG_SIZE)
    (_hpc : (psoe_run n (psoe_entry (argpool 5 max 1 0))
      (psoe_wrapper_init 5 max 1).shared).1.pc = Loc.waitLoop) :
    ¬ ((psoe_run n (psoe_entry (argpool 5 max 1 0)) (psoe_wrapper_init 5 max 1).shared).1.i >
       (psoe_run n (psoe_entry (argpool 5 max 1 0))
        (psoe_wrapper_init 5 max 1).shared).2.max_sieved_sq) :=
  Nat.not_lt.mpr (solo_inv_run n _ _ (solo_inv_init max h25 hrep)).index_le

/-! ## Dependence of the result on the schedule -/

theorem run_5_900_single :
    psoe_wrapper 5 900 1 (List.replicate 749 0) = some sieve_5_900_single := by
  decide!

theorem run_5_900_five :
    psoe_wrapper 5 900 5 sched_5_900_five = some sieve_5_900_five := by
  decide!

set_option maxRecDepth 1000000 in
theorem run_5_900_thread_two_first :
    ((((psoe_wrapper_init 5 900 5).run (List.replicate 134 2)).threads.map
        fun w => (w.args.tid, w.pc, w.i)) =
      [(0, Loc.loopCond, 0), (1, Loc.loopCond, 1), (2, Loc.bitTest, 12), (3, Loc.loopCond, 3),
       (4, Loc.loopCond, 4)]) ∧
    BITTEST ((psoe_wrapper_init 5 900 5).run (List.replicate 134 2)).shared.sieve 12 = some 0 ∧
    BITTEST ((psoe_wrapper_init 5 900 5).run (List.replicate 136 2)).shared.sieve 418 =
      some 4 := by
  decide

theorem scan_5_900 :
    841 ∈ main_scan 5 900 sieve_5_900_single ∧ 841 ∉ main_scan 5 900 sieve_5_900_five := by
  decide!

/-- C11: for `start = 5` and `max = 900` the result depends on the thread count
and the schedule.  With one thread every completed call returns
`sieve_5_900_single`, in which bit 418 (the value `841 = 29 * 29`) is clear.
With five threads and the schedule that lets thread 2 run first, thread 2
stands before `BITTEST(sieve, 12)` after 134 steps (the value 29, whose bit
the pass of 5 on thread 0 has not yet set: thread 0 is at its entry), takes
29 for a prime and two steps later has crossed off 841: the call returns
`sieve_5_900_five`, in which bit 418 is set.  The sets of clear indices below
`valtoi(5, 900)` differ, and `main` prints 841 in the first case only. -/
theorem result_depends_on_schedule :
    psoe_wrapper 5 900 1 (List.replicate 749 0) = some sieve_5_900_single ∧
    (∀ sched sieve, psoe_wrapper 5 900 1 sched = some sieve → sieve = sieve_5_900_single) ∧
    psoe_wrapper 5 900 5 sched_5_900_five = some sieve_5_900_five ∧
    ((((psoe_wrapper_init 5 900 5).run (List.replicate 134 2)).threads.map
        fun w => (w.args.tid, w.pc, w.i)) =
      [(0, Loc.loopCond, 0), (1, Loc.loopCond, 1), (2, Loc.bitTest, 12), (3, Loc.loopCond, 3),
       (4, Loc.loopCond, 4)]) ∧
    BITTEST ((psoe_wrapper_init 5 900 5).run (List.replicate 134 2)).shared.sieve 12 = some 0 ∧
    BITTEST ((psoe_wrapper_init 5 900 5).run (List.replicate 136 2)).shared.sieve 418 =
      some 4 ∧
    418 < valtoi 5 900 ∧ itoval 5 418 = 841 ∧
    BITTEST sieve_5_900_single 418 = some 0 ∧ BITTEST sieve_5_900_five 418 = some 4 ∧
    841 ∈ main_scan 5 900 sieve_5_900_single ∧ 841 ∉ main_scan 5 900 sieve_5_900_five := by
  refine ⟨run_5_900_single, ?_, run_5_900_five, run_5_900_thread_two_first.1,
    run_5_900_thread_two_first.2.1, run_5_900_thread_two_first.2.2, by decide, by decide,
    by decide, by decide, scan_5_900.1, scan_5_900.2⟩
  intro sched sieve h
  exact psoe_wrapper_single_unique 5 900 sched (List.replicate 749 0) sieve sieve_5_900_single
    h run_5_900_single

/-! ## The worker on memory without bounds -/

theorem psoe_run_flat_add (a b : Nat) (w : Worker) (sh : Flat) :
    psoe_run_flat (a + b) w sh =
      psoe_run_flat b (psoe_run_flat a w sh).1 (psoe_run_flat a w sh).2 := by
  induction a generalizing w sh with
  | zero => simp [psoe_run_flat]
  | succ a ih =>
      rw [Nat.add_right_comm]
      exact ih (psoe_step_flat w sh).1 (psoe_step_flat w sh).2

/-- A step that does not lead back to the loop condition is followed by the
rest of the iteration. -/
theorem psoe_iter_flat_succ (n : Nat) (w : Worker) (sh : Flat)
    (h : (psoe_step_flat w sh).1.pc ≠ Loc.loopCond) :
    psoe_iter_flat (n + 1) w sh =
      psoe_iter_flat n (psoe_step_flat w sh).1 (psoe_step_flat w sh).2 := by
  rw [psoe_iter_flat, if_neg h]

/-- An iteration that has ended is the result of a run. -/
theorem psoe_iter_flat_run (n : Nat) (w : Worker) (sh : Flat) (r : Worker × Flat)
    (h : psoe_iter_flat n w sh = some r) :
    ∃ m, psoe_run_flat m w sh = r := by
  induction n generalizing w sh with
  | zero => cases h
  | succ n ih =>
      unfold psoe_iter_flat at h
      split at h
      · simp only [Option.some.injEq] at h
        exact ⟨1, h⟩
      · obtain ⟨m, hm⟩ := ih _ _ h
        exact ⟨m + 1, hm⟩

/-- From the label `up_max` the iteration ends within two steps and leaves the
frontier at the maximum of its old value and `isq`. -/
theorem psoe_iter_flat_upMax (w : Worker) (sh : Flat) (hpc : w.pc = Loc.upMax) :
    ∃ r, psoe_iter_flat 2 w sh = some r ∧ r.1 = psoe_continue w ∧ r.2.mem = sh.mem ∧
      r.2.max_sieved_sq = max sh.max_sieved_sq w.isq := by
  rcases w with ⟨args, pc, i, ival, isq, j⟩
  simp only at hpc
  subst hpc
  by_cases hlt : isq < sh.max_sieved_sq
  · refine ⟨(psoe_continue _, sh), ?_, rfl, rfl, ?_⟩
    · simp [psoe_iter_flat, psoe_step_flat, psoe_continue, hlt]
    · exact (Nat.max_eq_left (Nat.le_of_lt hlt)).symm
  · by_cases hgt : isq > sh.max_sieved_sq
    · refine ⟨(psoe_continue _, { sh with max_sieved_sq := isq }), ?_, rfl, rfl, ?_⟩
      · simp [psoe_iter_flat, psoe_step_flat, psoe_continue, hlt, hgt]
      · exact (Nat.max_eq_right (Nat.le_of_lt hgt)).symm
    · refine ⟨(psoe_continue _, sh), ?_, rfl, rfl, ?_⟩
      · simp [psoe_iter_flat, psoe_step_flat, psoe_continue, hlt, hgt]
      · have : isq = sh.max_sieved_sq := by omega
        rw [this, Nat.max_self]

/-- The crossing-off loop on memory without bounds: when the loop variable
first reaches or passes `jmax` after `K` increments, the iteration ends after
`K + 3` steps and leaves the frontier at the maximum of its old value and
`isq`. -/
theorem psoe_iter_flat_crossOff (K : Nat) (w : Worker) (sh : Flat)
    (hpc : w.pc = Loc.crossOff) (hj : w.j < ULONG_SIZE)
    (hloop : ∀ k, k < K → (w.j + k * w.ival) % ULONG_SIZE < w.args.jmax)
    (hexit : w.args.jmax ≤ (w.j + K * w.ival) % ULONG_SIZE) :
    ∃ r, psoe_iter_flat (K + 3) w sh = some r ∧ r.1.args = w.args ∧
      r.1.pc = Loc.loopCond ∧ r.1.i = (w.i + w.args.tcount) % ULONG_SIZE ∧
      r.1.isq = w.isq ∧ r.2.max_sieved_sq = max sh.max_sieved_sq w.isq := by
  induction K generalizing w sh with
  | zero =>
      rcases w with ⟨args, pc, i, ival, isq, j⟩
      simp only at hpc hj hexit
      subst hpc
      have hge : ¬ j < args.jmax := by
        rw [Nat.zero_mul, Nat.add_zero, Nat.mod_eq_of_lt hj] at hexit
        omega
      have hstep : psoe_step_flat ⟨args, Loc.crossOff, i, ival, isq, j⟩ sh =
          (⟨args, Loc.upMax, i, ival, isq, j⟩, sh) := by
        simp [psoe_step_flat, hge]
      rw [psoe_iter_flat_succ _ _ _ (by rw [hstep]; simp), hstep]
      obtain ⟨r, hr, hw, _, hm⟩ := psoe_iter_flat_upMax ⟨args, Loc.upMax, i, ival, isq, j⟩ sh rfl
      refine ⟨r, hr, ?_, ?_, ?_, ?_, hm⟩ <;> rw [hw] <;> rfl
  | succ K ih =>
      rcases w with ⟨args, pc, i, ival, isq, j⟩
      simp only at hpc hj hexit hloop
      subst hpc
      have hlt : j < args.jmax := by
        have h0 := hloop 0 (Nat.succ_pos K)
        rw [Nat.zero_mul, Nat.add_zero, Nat.mod_eq_of_lt hj] at h0
        exact h0
      have hstep : psoe_step_flat ⟨args, Loc.crossOff, i, ival, isq, j⟩ sh =
          (⟨args, Loc.crossOff, i, ival, isq, (j + ival) % ULONG_SIZE⟩,
            { sh with mem := BITSET_flat sh.mem (valtoi args.start j) }) := by
        simp [psoe_step_flat, hlt]
      have hshift : ∀ k, ((j + ival) % ULONG_SIZE + k * ival) % ULONG_SIZE =
          (j + (k + 1) * ival) % ULONG_SIZE := by
        intro k
        rw [Nat.mod_add_mod, Nat.succ_mul]
        congr 1
        omega
      rw [show K + 1 + 3 = (K + 3) + 1 from by omega,
        psoe_iter_flat_succ _ _ _ (by rw [hstep]; simp), hstep]
      have hU : (0 : Nat) < ULONG_SIZE := by rw [ulong_size_eq]; norm_num
      obtain ⟨r, hr, ha, hp, hi, hq, hm⟩ :=
        ih ⟨args, Loc.crossOff, i, ival, isq, (j + ival) % ULONG_SIZE⟩
          { sh with mem := BITSET_flat sh.mem (valtoi args.start j) } rfl
          (Nat.mod_lt _ hU)
          (fun k hk => by
            simp only
            rw [hshift]
            exact hloop (k + 1) (by omega))
          (by
            simp only
            rw [hshift]
            exact hexit)
      exact ⟨r, hr, ha, hp, hi, hq, hm⟩

/-- An odd increment brings the loop variable of the crossing-off loop to or
past any `jmax` below `2^64` after finitely many increments. -/
theorem exists_cross_exit (j ival jmax : Nat) (hodd : ival % 2 = 1) (hjmax : jmax < ULONG_SIZE) :
    ∃ K, (∀ k, k < K → (j + k * ival) % ULONG_SIZE < jmax) ∧
      jmax ≤ (j + K * ival) % ULONG_SIZE := by
  have hU : (1 : Nat) < ULONG_SIZE := by rw [ulong_size_eq]; norm_num
  have hcop : Nat.Coprime ival ULONG_SIZE := by
    unfold ULONG_SIZE
    exact Nat.Coprime.pow_right 64 (Nat.coprime_two_right.mpr (Nat.odd_iff.mpr hodd))
  obtain ⟨m, hm⟩ := Nat.exists_mul_emod_eq_one_of_coprime hcop hU
  have hex : ∃ k, jmax ≤ (j + k * ival) % ULONG_SIZE := by
    refine ⟨m * (ULONG_SIZE - 1 - j % ULONG_SIZE), ?_⟩
    have h1 : ival * m ≡ 1 [MOD ULONG_SIZE] := by
      unfold Nat.ModEq
      rw [hm, Nat.mod_eq_of_lt hU]
    have h2 : m * (ULONG_SIZE - 1 - j % ULONG_SIZE) * ival ≡
        ULONG_SIZE - 1 - j % ULONG_SIZE [MOD ULONG_SIZE] := by
      have := h1.mul_right (ULONG_SIZE - 1 - j % ULONG_SIZE)
      rw [Nat.one_mul] at this
      have hre : m * (ULONG_SIZE - 1 - j % ULONG_SIZE) * ival =
          ival * m * (ULONG_SIZE - 1 - j % ULONG_SIZE) := by ring
      rw [hre]
      exact this
    have h3 : j + m * (ULONG_SIZE - 1 - j % ULONG_SIZE) * ival ≡
        j % ULONG_SIZE + (ULONG_SIZE - 1 - j % ULONG_SIZE) [MOD ULONG_SIZE] :=
      Nat.ModEq.add (Nat.mod_modEq j ULONG_SIZE).symm h2
    have hlt : j % ULONG_SIZE < ULONG_SIZE := Nat.mod_lt _ (by omega)
    have hsum : j % ULONG_SIZE + (ULONG_SIZE - 1 - j % ULONG_SIZE) = ULONG_SIZE - 1 := by omega
    rw [hsum] at h3
    unfold Nat.ModEq at h3
    rw [h3, Nat.mod_eq_of_lt (by omega)]
    omega
  exact ⟨Nat.find hex, fun k hk => Nat.lt_of_not_le (Nat.find_min hex hk), Nat.find_spec hex⟩

/-- An iteration ends in one way only. -/
theorem psoe_iter_flat_unique (n n' : Nat) (w : Worker) (sh : Flat) (r r' : Worker × Flat)
    (h : psoe_iter_flat n w sh = some r) (h' : psoe_iter_flat n' w sh = some r') : r = r' := by
  induction n generalizing n' w sh with
  | zero => cases h
  | succ n ih =>
      cases n' with
      | zero => cases h'
      | succ n' =>
          unfold psoe_iter_flat at h h'
          by_cases hc : (psoe_step_flat w sh).1.pc = Loc.loopCond
          · rw [if_pos hc] at h h'
            rw [h] at h'
            exact Option.some.inj h'
          · rw [if_neg hc] at h h'
            exact ih _ _ _ h h'

/-- On memory without bounds an iteration entered below the loop bound, with
the index not above the frontier, an odd candidate and `jmax` below `2^64`,
ends, whatever the content of the memory, and leaves the frontier at the
maximum of its old value and `isq`. -/
theorem psoe_iter_flat_total (w : Worker) (sh : Flat) (hpc : w.pc = Loc.loopCond)
    (hi : w.i < w.args.imax) (hwait : w.i ≤ sh.max_sieved_sq)
    (hodd : itoval w.args.start w.i % 2 = 1) (hjmax : w.args.jmax < ULONG_SIZE) :
    ∃ n r, psoe_iter_flat n w sh = some r ∧ r.1.args = w.args ∧ r.1.pc = Loc.loopCond ∧
      r.1.i = (w.i + w.args.tcount) % ULONG_SIZE ∧
      r.2.max_sieved_sq = max sh.max_sieved_sq
        ((itoval w.args.start w.i * itoval w.args.start w.i) % ULONG_SIZE) := by
  rcases w with ⟨args, pc, i, ival, isq, j⟩
  simp only at hpc hi hwait hodd hjmax
  subst hpc
  have hU : (0 : Nat) < ULONG_SIZE := by rw [ulong_size_eq]; norm_num
  have hs1 : psoe_step_flat ⟨args, Loc.loopCond, i, ival, isq, j⟩ sh =
      (⟨args, Loc.waitLoop, i, itoval args.start i,
        (itoval args.start i * itoval args.start i) % ULONG_SIZE, j⟩, sh) := by
    simp [psoe_step_flat, hi]
  have hs2 : psoe_step_flat ⟨args, Loc.waitLoop, i, itoval args.start i,
        (itoval args.start i * itoval args.start i) % ULONG_SIZE, j⟩ sh =
      (⟨args, Loc.bitTest, i, itoval args.start i,
        (itoval args.start i * itoval args.start i) % ULONG_SIZE, j⟩, sh) := by
    simp [psoe_step_flat, Nat.not_lt.mpr hwait]
  by_cases hb : BITTEST_flat sh.mem i ≠ 0
  · have hs3 : psoe_step_flat ⟨args, Loc.bitTest, i, itoval args.start i,
          (itoval args.start i * itoval args.start i) % ULONG_SIZE, j⟩ sh =
        (⟨args, Loc.upMax, i, itoval args.start i,
          (itoval args.start i * itoval args.start i) % ULONG_SIZE, j⟩, sh) := by
      simp only [psoe_step_flat]
      rw [if_pos hb]
    obtain ⟨r, hr, hw, _, hm⟩ := psoe_iter_flat_upMax ⟨args, Loc.upMax, i, itoval args.start i,
      (itoval args.start i * itoval args.start i) % ULONG_SIZE, j⟩ sh rfl
    refine ⟨2 + 1 + 1 + 1, r, ?_, ?_, ?_, ?_, hm⟩
    · rw [psoe_iter_flat_succ _ _ _ (by rw [hs1]; simp), hs1,
        psoe_iter_flat_succ _ _ _ (by rw [hs2]; simp), hs2,
        psoe_iter_flat_succ _ _ _ (by rw [hs3]; simp), hs3]
      exact hr
    · rw [hw]; rfl
    · rw [hw]; rfl
    · rw [hw]; rfl
  · have hs3 : psoe_step_flat ⟨args, Loc.bitTest, i, itoval args.start i,
          (itoval args.start i * itoval args.start i) % ULONG_SIZE, j⟩ sh =
        (⟨args, Loc.crossOff, i, itoval args.start i,
          (itoval args.start i * itoval args.start i) % ULONG_SIZE,
          (itoval args.start i * itoval args.start i) % ULONG_SIZE⟩, sh) := by
      simp only [psoe_step_flat]
      rw [if_neg hb]
    obtain ⟨K, hloop, hexit⟩ := exists_cross_exit
      ((itoval args.start i * itoval args.start i) % ULONG_SIZE) (itoval args.start i)
      args.jmax hodd hjmax
    obtain ⟨r, hr, ha, hp, hri, _, hm⟩ := psoe_iter_flat_crossOff K
      ⟨args, Loc.crossOff, i, itoval args.start i,
        (itoval args.start i * itoval args.start i) % ULONG_SIZE,
        (itoval args.start i * itoval args.start i) % ULONG_SIZE⟩ sh rfl
      (Nat.mod_lt _ hU) hloop hexit
    refine ⟨K + 3 + 1 + 1 + 1, r, ?_, ha, hp, hri, hm⟩
    rw [psoe_iter_flat_succ _ _ _ (by rw [hs1]; simp), hs1,
      psoe_iter_flat_succ _ _ _ (by rw [hs2]; simp), hs2,
      psoe_iter_flat_succ _ _ _ (by rw [hs3]; simp), hs3]
    exact hr

/-- C14: one iteration of a worker run on its own, on memory without bounds,
entered at the loop condition with an index `i` below the loop bound and not
above the frontier (so that the wait loop is passed), for an odd candidate
`itoval(start, i)` and an `unsigned long` bound `jmax`.  Whatever the content
of the memory, that is whether the bit test finds the candidate composite
(`goto up_max`) or prime (crossing-off loop first), the iteration ends, the
worker is back at the loop condition with `i + tcount`, and the frontier is the
maximum of its previous value and `isq`, the `unsigned long` product
`ival * ival`; it is unchanged when `isq` is not greater than the previous
value.  The iteration ends in this way only, and `isq` is `itoval(start, i)^2`
when `itoval(start, i) < 2^32`. -/
theorem iteration_ends_with_frontier_max (w : Worker) (sh : Flat) (hpc : w.pc = Loc.loopCond)
    (hi : w.i < w.args.imax) (hwait : w.i ≤ sh.max_sieved_sq)
    (hodd : itoval w.args.start w.i % 2 = 1) (hjmax : w.args.jmax < ULONG_SIZE) :
    (∃ n r, psoe_iter_flat n w sh = some r ∧ r.1.pc = Loc.loopCond ∧
      r.1.i = (w.i + w.args.tcount) % ULONG_SIZE ∧
      r.2.max_sieved_sq = max sh.max_sieved_sq
        ((itoval w.args.start w.i * itoval w.args.start w.i) % ULONG_SIZE) ∧
      ((itoval w.args.start w.i * itoval w.args.start w.i) % ULONG_SIZE ≤ sh.max_sieved_sq →
        r.2.max_sieved_sq = sh.max_sieved_sq) ∧
      ∀ n' r', psoe_iter_flat n' w sh = some r' → r' = r) ∧
    (itoval w.args.start w.i < 2 ^ 32 →
      (itoval w.args.start w.i * itoval w.args.start w.i) % ULONG_SIZE =
        itoval w.args.start w.i ^ 2) := by
  constructor
  · obtain ⟨n, r, hr, _, hp, hri, hm⟩ := psoe_iter_flat_total w sh hpc hi hwait hodd hjmax
    refine ⟨n, r, hr, hp, hri, hm, ?_, ?_⟩
    · intro hle
      rw [hm, Nat.max_eq_left hle]
    · intro n' r' hr'
      exact psoe_iter_flat_unique n' n w sh r' r hr' hr
  · intro h32
    have hlt : itoval w.args.start w.i * itoval w.args.start w.i < ULONG_SIZE := by
      rw [ulong_size_eq]
      have h := Nat.mul_lt_mul'' h32 h32
      norm_num at h
      exact h
    rw [Nat.mod_eq_of_lt hlt, sq]

set_option maxRecDepth 100000 in
theorem iteration_ends_with_frontier_max_witness :
    Worker.pc { args := argpool 5 100 1 0, pc := Loc.loopCond, i := 1, ival := 5, isq := 25,
                j := 100 } = Loc.loopCond ∧
    1 < (argpool 5 100 1 0).imax ∧ 1 ≤ 25 ∧ itoval 5 1 % 2 = 1 ∧ 100 < ULONG_SIZE ∧
    BITTEST_flat (fun k => [0, 148, 82, 74, 41, 37].getD k 0) 1 = 0 ∧
    (psoe_run_flat 14
      { args := argpool 5 100 1 0, pc := Loc.loopCond, i := 1, ival := 5, isq := 25, j := 100 }
      { mem := fun k => [0, 148, 82, 74, 41, 37].getD k 0, max_sieved_sq := 25 }).1.pc =
        Loc.loopCond ∧
    ∃ n r, psoe_iter_flat n
        { args := argpool 5 100 1 0, pc := Loc.loopCond, i := 1, ival := 5, isq := 25, j := 100 }
        { mem := fun k => [0, 148, 82, 74, 41, 37].getD k 0, max_sieved_sq := 25 } = some r ∧
      r.2.max_sieved_sq = 49 :=
  ⟨rfl, by decide, by decide, by decide, by decide, by decide, by decide,
    match (iteration_ends_with_frontier_max
      { args := argpool 5 100 1 0, pc := Loc.loopCond, i := 1, ival := 5, isq := 25, j := 100 }
      { mem := fun k => [0, 148, 82, 74, 41, 37].getD k 0, max_sieved_sq := 25 }
      rfl (by decide) (by decide) (by decide) (by decide)).1 with
    | ⟨n, r, hr, _, _, hm, _, _⟩ => ⟨n, r, hr, hm.trans (by decide)⟩⟩

/-! ## The single worker on memory without bounds -/

theorem square_eq_of_lt (i : Nat) (hi : i < 2147483646) :
    itoval 5 i = 5 + 2 * i ∧
    (itoval 5 i * itoval 5 i) % ULONG_SIZE = (5 + 2 * i) * (5 + 2 * i) := by
  have hval : itoval 5 i = 5 + 2 * i := by
    unfold itoval
    rw [ulong_size_eq]
    omega
  refine ⟨hval, ?_⟩
  rw [hval]
  apply Nat.mod_eq_of_lt
  rw [ulong_size_eq]
  have h1 : 5 + 2 * i < 4294967296 := by omega
  have h2 := Nat.mul_lt_mul'' h1 h1
  norm_num at h2
  exact h2

theorem flat_inv_step (imax max : Nat) (himax : imax ≤ 2147483646) (w : Worker) (sh : Flat)
    (h : FlatInv imax max w sh) :
    FlatInv imax max (psoe_step_flat w sh).1 (psoe_step_flat w sh).2 := by
  obtain ⟨ha, hle, hli, hnf, hbody⟩ := h
  rcases w with ⟨args, pc, i, ival, wisq, j⟩
  simp only at ha hle hli hnf hbody
  subst ha
  cases pc with
  | loopCond =>
      simp only [psoe_step_flat]
      split
      · rename_i hi
        have hsq := square_eq_of_lt i (Nat.lt_of_lt_of_le hi himax)
        exact ⟨rfl, hle, hli, by simp, fun _ _ => ⟨hi, hsq.1, hsq.2⟩⟩
      · exact ⟨rfl, hle, hli, by simp, fun _ hr => absurd rfl hr⟩
  | returned => exact ⟨rfl, hle, hli, hnf, hbody⟩
  | fault => exact absurd rfl hnf
  | waitLoop =>
      have hb := hbody (by simp) (by simp)
      simp only [psoe_step_flat]
      split
      · exact ⟨rfl, hle, hli, by simp, fun _ _ => hb⟩
      · exact ⟨rfl, hle, hli, by simp, fun _ _ => hb⟩
  | bitTest =>
      have hb := hbody (by simp) (by simp)
      simp only [psoe_step_flat]
      split
      · exact ⟨rfl, hle, hli, by simp, fun _ _ => hb⟩
      · exact ⟨rfl, hle, hli, by simp, fun _ _ => hb⟩
  | crossOff =>
      have hb := hbody (by simp) (by simp)
      simp only [psoe_step_flat]
      split
      · exact ⟨rfl, hle, hli, by simp, fun _ _ => hb⟩
      · exact ⟨rfl, hle, hli, by simp, fun _ _ => hb⟩
  | upMax =>
      have hb := hbody (by simp) (by simp)
      simp only [psoe_step_flat]
      split
      · rename_i hlt
        have hsq := succ_le_square i
        have hmod : (i + 1) % ULONG_SIZE ≤ i + 1 := Nat.mod_le _ _
        simp only at hlt hb
        refine ⟨rfl, ?_, ?_, by simp [psoe_continue], fun hc _ => absurd rfl hc⟩
        · simp only [psoe_continue]
          omega
        · simp only [psoe_continue]
          omega
      · exact ⟨rfl, hle, hli, by simp, fun _ _ => hb⟩
  | lockedUpdate =>
      have hb := hbody (by simp) (by simp)
      have hsq := succ_le_square i
      have hmod : (i + 1) % ULONG_SIZE ≤ i + 1 := Nat.mod_le _ _
      simp only at hb
      simp only [psoe_step_flat]
      refine ⟨rfl, ?_, ?_, by simp [psoe_continue], fun hc _ => absurd rfl hc⟩
      · simp only [psoe_continue]
        split
        · simp only
          omega
        · omega
      · simp only [psoe_continue]
        omega

theorem flat_inv_run (imax max : Nat) (himax : imax ≤ 2147483646) (n : Nat) (w : Worker)
    (sh : Flat) (h : FlatInv imax max w sh) :
    FlatInv imax max (psoe_run_flat n w sh).1 (psoe_run_flat n w sh).2 := by
  induction n generalizing w sh with
  | zero => exact h
  | succ n ih => exact ih _ _ (flat_inv_step imax max himax w sh h)

theorem flat_inv_init (imax max : Nat) (behind : Nat → Nat) :
    FlatInv imax max
      (psoe_entry { start := 5, tid := 0, tcount := 1, imax := imax, jmax := max })
      (psoe_wrapper_flat 5 max behind) :=
  ⟨rfl, Nat.zero_le _, Nat.zero_le _, by simp [psoe_entry], fun hc _ => absurd rfl hc⟩

/-- On memory without bounds a single worker with loop bound `imax` that stands
at the loop condition with `d` indices to go returns, with `i = imax`. -/
theorem flat_single_returns (imax max : Nat) (himax : imax ≤ 2147483646)
    (hmax : max < ULONG_SIZE) (d : Nat) (w : Worker) (sh : Flat) (h : FlatInv imax max w sh)
    (hpc : w.pc = Loc.loopCond) (hd : w.i + d = imax) :
    ∃ n, (psoe_run_flat n w sh).1.pc = Loc.returned ∧ (psoe_run_flat n w sh).1.i = imax := by
  induction d generalizing w sh with
  | zero =>
      refine ⟨1, ?_⟩
      rcases w with ⟨args, pc, i, ival, wisq, j⟩
      have ha := h.args_eq
      simp only at hpc hd ha
      subst hpc
      subst ha
      have hni : ¬ i < imax := by omega
      simp only [psoe_run_flat, psoe_step_flat]
      rw [if_neg hni]
      exact ⟨rfl, by simpa using hd⟩
  | succ d ih =>
      have ha := h.args_eq
      have hi : w.i < w.args.imax := by rw [ha]; simp only; omega
      have hsq := square_eq_of_lt w.i (by omega)
      have hodd : itoval w.args.start w.i % 2 = 1 := by
        rw [ha]
        simp only
        rw [hsq.1]
        omega
      have hj : w.args.jmax < ULONG_SIZE := by rw [ha]; exact hmax
      obtain ⟨n, r, hr, _, hrp, hri, _⟩ := psoe_iter_flat_total w sh hpc hi h.index_le hodd hj
      obtain ⟨m, hm⟩ := psoe_iter_flat_run n w sh r hr
      have hinv : FlatInv imax max r.1 r.2 := by
        rw [← hm]
        exact flat_inv_run imax max himax m w sh h
      have hri' : r.1.i + d = imax := by
        rw [hri, ha]
        simp only
        rw [ulong_size_eq, Nat.mod_eq_of_lt (by omega)]
        omega
      obtain ⟨n', hn'⟩ := ih r.1 r.2 hinv hrp hri'
      refine ⟨m + n', ?_⟩
      rw [psoe_run_flat_add, hm]
      exact hn'

theorem imax_of_one (itop : Nat) : imax_of itop 1 0 = itop := by
  unfold imax_of
  rw [Nat.mod_one, if_neg (by omega)]

theorem valtoi_sqrt_le (s : Nat) (hs5 : 5 ≤ s) (hs : s ≤ 4294967296) :
    valtoi 5 ((s + 1) % ULONG_SIZE) ≤ 2147483646 := by
  unfold valtoi
  rw [ulong_size_eq]
  omega

theorem csqrt_bounds (max : Nat) (h25 : 25 ≤ max) (hrep : max < ULONG_SIZE) :
    5 ≤ csqrt max ∧ csqrt max ≤ 4294967296 := by
  rw [csqrt_eq_sqrt]
  constructor
  · exact Nat.le_sqrt.mpr (by omega)
  · apply Nat.le_of_lt
    apply Nat.sqrt_lt.mpr
    rw [ulong_size_eq] at hrep
    omega

/-- C18: the single worker of `psoe_wrapper(5, max, 1)` on memory without
bounds, for every `unsigned long` bound `max >= 25` and every value `s` from 5
to `2^32` of the call `(ulong) sqrt(max)` (the floor square root `csqrt max` is
one such value), with `itop = valtoi(5, s + 1)` as line 143 computes it and
any content of the memory behind the buffer.  Whenever the worker stands in
the wait loop the predicate `i > *max_sieved_sq` is false, so it never blocks;
and the worker returns, with `i = itop`, that is after `itop` iterations of
the loop of line 79. -/
theorem single_worker_never_waits_and_returns (max s : Nat) (behind : Nat → Nat)
    (h25 : 25 ≤ max) (hrep : max < ULONG_SIZE) (hs5 : 5 ≤ s) (hs : s ≤ 4294967296) :
    (∀ n,
      (psoe_run_flat n
        (psoe_entry { start := 5, tid := 0, tcount := 1,
                      imax := imax_of (valtoi 5 ((s + 1) % ULONG_SIZE)) 1 0, jmax := max })
        (psoe_wrapper_flat 5 max behind)).1.pc = Loc.waitLoop →
      ¬ ((psoe_run_flat n
          (psoe_entry { start := 5, tid := 0, tcount := 1,
                        imax := imax_of (valtoi 5 ((s + 1) % ULONG_SIZE)) 1 0, jmax := max })
          (psoe_wrapper_flat 5 max behind)).1.i >
         (psoe_run_flat n
          (psoe_entry { start := 5, tid := 0, tcount := 1,
                        imax := imax_of (valtoi 5 ((s + 1) % ULONG_SIZE)) 1 0, jmax := max })
          (psoe_wrapper_flat 5 max behind)).2.max_sieved_sq)) ∧
    (∃ n,
      (psoe_run_flat n
        (psoe_entry { start := 5, tid := 0, tcount := 1,
                      imax := imax_of (valtoi 5 ((s + 1) % ULONG_SIZE)) 1 0, jmax := max })
        (psoe_wrapper_flat 5 max behind)).1.pc = Loc.returned ∧
      (psoe_run_flat n
        (psoe_entry { start := 5, tid := 0, tcount := 1,
                      imax := imax_of (valtoi 5 ((s + 1) % ULONG_SIZE)) 1 0, jmax := max })
        (psoe_wrapper_flat 5 max behind)).1.i = valtoi 5 ((s + 1) % ULONG_SIZE)) ∧
    (5 ≤ csqrt max ∧ csqrt max ≤ 4294967296 ∧
      argpool 5 max 1 0 =
        { start := 5, tid := 0, tcount := 1,
          imax := imax_of (valtoi 5 ((csqrt max + 1) % ULONG_SIZE)) 1 0, jmax := max }) := by
  have himax : imax_of (valtoi 5 ((s + 1) % ULONG_SIZE)) 1 0 ≤ 2147483646 := by
    rw [imax_of_one]
    exact valtoi_sqrt_le s hs5 hs
  have hinit := flat_inv_init (imax_of (valtoi 5 ((s + 1) % ULONG_SIZE)) 1 0) max behind
  refine ⟨?_, ?_, (csqrt_bounds max h25 hrep).1, (csqrt_bounds max h25 hrep).2, rfl⟩
  · intro n _
    exact Nat.not_lt.mpr (flat_inv_run _ max himax n _ _ hinit).index_le
  · obtain ⟨n, hp, hi⟩ := flat_single_returns _ max himax hrep
      (imax_of (valtoi 5 ((s + 1) % ULONG_SIZE)) 1 0) _ _ hinit rfl (by simp [psoe_entry])
    exact ⟨n, hp, by rw [hi, imax_of_one]⟩

set_option maxRecDepth 100000 in
/-- The run of the single worker for `max = 86` on memory without bounds,
with zeroes behind the buffer: it returns after 32 steps and two iterations,
with the frontier at 49 and the five bytes of the buffer at 0, 148, 82, 106,
185; the byte behind the buffer has received bit 0. -/
theorem flat_run_5_86 :
    (psoe_run_flat 32 (psoe_entry (argpool 5 86 1 0))
      (psoe_wrapper_flat 5 86 fun _ => 0)).1.pc = Loc.returned ∧
    (psoe_run_flat 32 (psoe_entry (argpool 5 86 1 0))
      (psoe_wrapper_flat 5 86 fun _ => 0)).1.i = 2 ∧
    (psoe_run_flat 32 (psoe_entry (argpool 5 86 1 0))
      (psoe_wrapper_flat 5 86 fun _ => 0)).2.max_sieved_sq = 49 ∧
    (List.range 6).map (psoe_run_flat 32 (psoe_entry (argpool 5 86 1 0))
      (psoe_wrapper_flat 5 86 fun _ => 0)).2.mem = [0, 148, 82, 106, 185, 1] := by
  decide

theorem single_worker_never_waits_and_returns_witness :
    25 ≤ 86 ∧ 86 < ULONG_SIZE ∧ 5 ≤ 9 ∧ 9 ≤ 4294967296 ∧ csqrt 86 = 9 ∧
    ∃ n,
      (psoe_run_flat n
        (psoe_entry { start := 5, tid := 0, tcount := 1,
                      imax := imax_of (valtoi 5 ((9 + 1) % ULONG_SIZE)) 1 0, jmax := 86 })
        (psoe_wrapper_flat 5 86 fun _ => 0)).1.pc = Loc.returned ∧
      (psoe_run_flat n
        (psoe_entry { start := 5, tid := 0, tcount := 1,
                      imax := imax_of (valtoi 5 ((9 + 1) % ULONG_SIZE)) 1 0, jmax := 86 })
        (psoe_wrapper_flat 5 86 fun _ => 0)).1.i = valtoi 5 ((9 + 1) % ULONG_SIZE) :=
  ⟨by decide, by decide, by decide, by decide, by decide,
    (single_worker_never_waits_and_returns 86 9 (fun _ => 0) (by decide) (by decide)
      (by decide) (by decide)).2.1⟩

/-! ## The index sets as arithmetic progressions -/

/-- The index set of thread `tid` holds the numbers `tid + k * tcount` below
the bound of the thread. -/
theorem mem_index_set (itop tcount tid x : Nat) :
    x ∈ index_set itop tcount tid ↔
      ∃ k, x = tid + k * tcount ∧ x < imax_of itop tcount tid := by
  unfold index_set
  rw [List.mem_filter, List.mem_range, decide_eq_true_iff]
  constructor
  · rintro ⟨hlt, hle, hmod⟩
    refine ⟨(x - tid) / tcount, ?_, hlt⟩
    have h := Nat.mod_add_div (x - tid) tcount
    rw [hmod, Nat.mul_comm] at h
    omega
  · rintro ⟨k, hx, hlt⟩
    have hle : tid ≤ x := by rw [hx]; exact Nat.le_add_right _ _
    refine ⟨hlt, hle, ?_⟩
    have hsub : x - tid = k * tcount := by omega
    rw [hsub]
    exact Nat.mul_mod_left _ _

/-- Every index that `valtoi` returns is below `2^63`: so is `itop`. -/
theorem valtoi_lt_half (start v : Nat) : valtoi start v < 9223372036854775808 := by
  unfold valtoi
  have h := Nat.mod_lt (v + ULONG_SIZE - start) (by decide : ULONG_SIZE > 0)
  rw [ulong_size_eq] at h ⊢
  omega

/-- C19: for every `itop` and every `tcount >= 1` with `itop + tcount`
representable, the index sets `{tid, tid + tcount, ... < imax_tid}` for the
bounds `imax_tid` that `psoe_wrapper` stores are pairwise disjoint across
thread ids, together they contain every index of `[0, itop)`, and every index
in them is below `itop + tcount`.  When moreover `itop + 2 * tcount` does not
exceed `2^64` (as for every `itop` that `valtoi` returns and up to `2^62`
threads), the loop of line 79 visits exactly the indices of these sets. -/
theorem index_sets_partition (itop tcount : Nat) (ht : 1 ≤ tcount)
    (hrep : itop + tcount < ULONG_SIZE) :
    (∀ tid x, x ∈ index_set itop tcount tid ↔
      ∃ k, x = tid + k * tcount ∧ x < imax_of itop tcount tid) ∧
    (∀ t₁ t₂ x, t₁ < tcount → t₂ < tcount →
      x ∈ index_set itop tcount t₁ → x ∈ index_set itop tcount t₂ → t₁ = t₂) ∧
    (∀ x, x < itop → ∃ tid, tid < tcount ∧ x ∈ index_set itop tcount tid) ∧
    (∀ tid x, tid < tcount → x ∈ index_set itop tcount tid → x < itop + tcount) ∧
    (itop + 2 * tcount ≤ ULONG_SIZE →
      ∀ tid x, x ∈ assigned itop tcount tid ↔ x ∈ index_set itop tcount tid) := by
  refine ⟨fun tid x => mem_index_set itop tcount tid x, ?_, ?_, ?_, ?_⟩
  · intro t₁ t₂ x h₁ h₂ hx₁ hx₂
    obtain ⟨k₁, e₁, _⟩ := (mem_index_set itop tcount t₁ x).mp hx₁
    obtain ⟨k₂, e₂, _⟩ := (mem_index_set itop tcount t₂ x).mp hx₂
    have m₁ : x % tcount = t₁ := by
      rw [e₁, Nat.add_mul_mod_self_right, Nat.mod_eq_of_lt h₁]
    have m₂ : x % tcount = t₂ := by
      rw [e₂, Nat.add_mul_mod_self_right, Nat.mod_eq_of_lt h₂]
    rw [← m₁, ← m₂]
  · intro x hx
    refine ⟨x % tcount, Nat.mod_lt _ ht, ?_⟩
    rw [mem_index_set]
    refine ⟨x / tcount, ?_, ?_⟩
    · have := Nat.mod_add_div x tcount
      rw [Nat.mul_comm] at this
      omega
    · have hb := imax_of_bounds itop tcount (x % tcount) hrep
      omega
  · intro tid x _ hx
    obtain ⟨k, _, hlt⟩ := (mem_index_set itop tcount tid x).mp hx
    have hb := imax_of_bounds itop tcount tid hrep
    omega
  · intro h2 tid x
    rw [mem_assigned itop tcount tid x ht h2, mem_index_set]

theorem index_sets_partition_witness :
    1 ≤ 3 ∧ 11 + 3 < ULONG_SIZE ∧
    index_set 11 3 0 = [0, 3, 6, 9, 12] ∧ index_set 11 3 1 = [1, 4, 7, 10, 13] ∧
    index_set 11 3 2 = [2, 5, 8] ∧
    (∀ t₁ t₂ x, t₁ < 3 → t₂ < 3 → x ∈ index_set 11 3 t₁ → x ∈ index_set 11 3 t₂ → t₁ = t₂) ∧
    (∀ x, x < 11 → ∃ tid, tid < 3 ∧ x ∈ index_set 11 3 tid) ∧
    (∀ tid x, tid < 3 → x ∈ index_set 11 3 tid → x < 11 + 3) :=
  ⟨by decide, by decide, by decide, by decide, by decide,
    (index_sets_partition 11 3 (by decide) (by decide)).2.1,
    (index_sets_partition 11 3 (by decide) (by decide)).2.2.1,
    (index_sets_partition 11 3 (by decide) (by decide)).2.2.2.1⟩

end Sieve
